import Mathlib

/-!
Verification of the Edmonds-Karp implementation in
`src/edmonds_karp_algorithm.py`.

The Python program mutates `Edge` objects shared between the adjacency
structure and the `residual` back-references.  Following the index-based
arena representation (each `Edge` is a slot in one list, and `residual`
stores the index of the paired edge), the mutable object graph becomes a
pure state that is threaded explicitly.  The three `while` loops of the
source (the BFS queue loop, the two predecessor-chain walks, and the
solver loop) are modelled with an explicit fuel parameter; fuel
sufficiency under the well-formedness invariant is proved separately, so
that on well-formed graphs the fueled functions compute exactly what the
unbounded Python loops compute.

Python `int` values (node numbers, capacities, flows) are modelled as
`Int`.  List indexing in the source always happens at in-range indices on
well-formed graphs; it is modelled with `List.getD` / `List.set`, which
are total.
-/

set_option linter.unusedVariables false

/-- The `Edge` class: a single directed capacitated connection.  The
`residual` field holds the arena index of the paired opposite edge
(the Python object reference, represented index-based). -/
structure Edge where
  capacity : Int
  from_node : Int
  to_node : Int
  flow : Int
  residual : Nat
deriving Repr, DecidableEq, Inhabited

/-- `Edge.__init__`: stores `capacity`, decrements both endpoints by one
(the source numbers nodes from 1), starts with `flow = 0` and a
placeholder residual. -/
def Edge.init (capacity from_node to_node : Int) : Edge :=
  { capacity := capacity
    from_node := from_node - 1
    to_node := to_node - 1
    flow := 0
    residual := 0 }

/-- `Edge.remaining_capacity`: `self.capacity - self.flow`. -/
def Edge.remaining_capacity (e : Edge) : Int :=
  e.capacity - e.flow

/-- The `Graph` class.  `edges` is the arena of every `Edge` object ever
created, in creation order; `graph` is the adjacency structure
(`self.graph`), holding for each node the arena indices of its edges in
insertion order. -/
structure Graph where
  num_nodes : Int
  source : Int
  sink : Int
  edges : List Edge
  graph : List (List Nat)
deriving Repr, DecidableEq, Inhabited

/-- `Graph.__init__`: records `num_nodes`, normalises `source` and `sink`
to 0-based, and initialises the adjacency structure to `num_nodes`
empty lists (`[0] * n` then overwritten by `[]` in the loop). -/
def Graph.init (num_nodes source sink : Int) : Graph :=
  { num_nodes := num_nodes
    source := source - 1
    sink := sink - 1
    edges := []
    graph := List.replicate num_nodes.toNat [] }

/-- In-place update of one list cell, used to model mutation of a Python
list element (`self.graph[i].append(...)` and `edge.flow += ...` on the
arena). -/
def listModify {α : Type} (l : List α) (i : Nat) (f : α → α) : List α :=
  match l, i with
  | [], _ => []
  | a :: t, 0 => f a :: t
  | a :: t, n + 1 => a :: listModify t n f

/-- Arena lookup for the `Edge` object at index `k` (a dereference of a
Python object reference; always in range on well-formed graphs). -/
def Graph.edge_at (g : Graph) (k : Nat) : Edge :=
  g.edges.getD k default

/-- `self.graph[v]`: the adjacency list of node `v` (in range on
well-formed graphs). -/
def Graph.adj (g : Graph) (v : Int) : List Nat :=
  g.graph.getD v.toNat []

/-- `Graph.add_edge`: creates the directed edge and its residual edge,
cross-links them (here: by arena index), and appends them to the
adjacency lists of `from_node-1` and `to_node-1` respectively. -/
def Graph.add_edge (g : Graph) (from_node to_node capacity : Int) : Graph :=
  let i := g.edges.length
  let directed_edge := { Edge.init capacity from_node to_node with residual := i + 1 }
  let residual_edge := { Edge.init 0 to_node from_node with residual := i }
  { g with
    edges := g.edges ++ [directed_edge, residual_edge]
    graph := listModify
      (listModify g.graph (from_node - 1).toNat (fun l => l ++ [i]))
      (to_node - 1).toNat (fun l => l ++ [i + 1]) }

/-- The body of the `for edge in self.graph[current_vertex]` loop inside
`Graph.bfs`: each unsaturated edge to an unvisited node marks that node
visited, records the edge as its predecessor, and enqueues the node. -/
def Graph.visitEdges (g : Graph) :
    List Nat → List Bool → List (Option Nat) → List Int →
    List Bool × List (Option Nat) × List Int
  | [], visited, previous, bfs_queue => (visited, previous, bfs_queue)
  | k :: ks, visited, previous, bfs_queue =>
    let edge := g.edge_at k
    if edge.remaining_capacity > 0 ∧ visited.getD edge.to_node.toNat false ≠ true then
      g.visitEdges ks (visited.set edge.to_node.toNat true)
        (previous.set edge.to_node.toNat (some k)) (bfs_queue ++ [edge.to_node])
    else
      g.visitEdges ks visited previous bfs_queue

/-- The `while len(bfs_queue) != 0` loop of `Graph.bfs`, with explicit
fuel.  Each iteration pops the front of the queue, stops if it is the
sink, and otherwise expands the popped node's adjacency list. -/
def Graph.bfsLoop (g : Graph) :
    Nat → List Int → List Bool → List (Option Nat) →
    List Bool × List (Option Nat)
  | 0, _, visited, previous => (visited, previous)
  | _ + 1, [], visited, previous => (visited, previous)
  | fuel + 1, current_vertex :: rest, visited, previous =>
    if current_vertex = g.sink then
      (visited, previous)
    else
      let s := g.visitEdges (g.adj current_vertex) visited previous rest
      g.bfsLoop fuel s.2.2 s.1 s.2.1

/-- `min(network_flow, x)` where `network_flow` starts as `math.inf`:
`none` models the initial infinity. -/
def minInf (network_flow : Option Int) (x : Int) : Option Int :=
  match network_flow with
  | none => some x
  | some a => some (min a x)

/-- The first back-tracking `while edge is not None` loop of `Graph.bfs`:
walks the predecessor chain from the sink and accumulates the minimum
remaining capacity, starting from `math.inf` (`none`). -/
def Graph.walkMin (g : Graph) (previous : List (Option Nat)) :
    Nat → Option Nat → Option Int → Option Int
  | _, none, network_flow => network_flow
  | 0, some _, network_flow => network_flow
  | fuel + 1, some k, network_flow =>
    let edge := g.edge_at k
    g.walkMin previous fuel (previous.getD edge.from_node.toNat none)
      (minInf network_flow edge.remaining_capacity)

/-- The second back-tracking loop of `Graph.bfs`: walks the predecessor
chain again and, for each edge on it, adds the bottleneck to its flow and
subtracts it from its residual's flow.  (The `residual` and `from_node`
fields read by the Python statements are unchanged by the flow updates,
so reading the edge once up front is equivalent.) -/
def walkUpdate (previous : List (Option Nat)) :
    Nat → List Edge → Option Nat → Int → List Edge
  | _, edges, none, _ => edges
  | 0, edges, some _, _ => edges
  | fuel + 1, edges, some k, network_flow =>
    let edge := edges.getD k default
    let edges' := listModify
      (listModify edges k (fun e => { e with flow := e.flow + network_flow }))
      edge.residual (fun e => { e with flow := e.flow - network_flow })
    walkUpdate previous fuel edges' (previous.getD edge.from_node.toNat none) network_flow

/-- Fuel used for the BFS queue loop and both chain walks: each dequeue
marks progress and a predecessor chain visits distinct nodes, so
`num_nodes + 1` steps always suffice (proved below). -/
def Graph.loopFuel (g : Graph) : Nat :=
  g.num_nodes.toNat + 1

/-- The initial visited array of `Graph.bfs`: all nodes unvisited, then
the source marked visited. -/
def Graph.bfsVisited0 (g : Graph) : List Bool :=
  (List.replicate g.num_nodes.toNat false).set g.source.toNat true

/-- The initial predecessor array of `Graph.bfs`: all entries `None`. -/
def Graph.bfsPrevious0 (g : Graph) : List (Option Nat) :=
  List.replicate g.num_nodes.toNat none

/-- The visited and predecessor arrays at the end of the queue loop of
`Graph.bfs` (the values of the local variables `visited` and `previous`
when the `while` loop exits). -/
def Graph.bfsTrace (g : Graph) : List Bool × List (Option Nat) :=
  g.bfsLoop g.loopFuel [g.source] g.bfsVisited0 g.bfsPrevious0

/-- `Graph.bfs`: runs the queue loop from the source, and if the sink was
reached, walks the predecessor chain to compute the bottleneck and then
to apply the paired flow updates.  Returns the bottleneck (0 when the
sink was not reached) together with the updated graph state. -/
def Graph.bfs (g : Graph) : Int × Graph :=
  let r := g.bfsTrace
  match (r.2).getD g.sink.toNat none with
  | none => (0, g)
  | some _ =>
    match g.walkMin r.2 g.loopFuel ((r.2).getD g.sink.toNat none) none with
    | none => (0, g)
    | some network_flow =>
      (network_flow,
        { g with edges := (walkUpdate r.2 g.loopFuel g.edges
            ((r.2).getD g.sink.toNat none) network_flow) })

/-- The `while flow > 0` loop of `Graph.edmonds_karp`, with explicit
fuel: run `bfs`, add its result to the accumulator, and continue while
the result is positive. -/
def Graph.edmondsKarpLoop : Nat → Graph → Int → Int × Graph
  | 0, g, max_flow => (max_flow, g)
  | fuel + 1, g, max_flow =>
    let r := g.bfs
    if r.1 > 0 then Graph.edmondsKarpLoop fuel r.2 (max_flow + r.1)
    else (max_flow + r.1, r.2)

/-- Total capacity of the forward (even-index) arena edges leaving the
source.  One augmentation round pushes at least one unit of new flow out
of the source, so this bounds the number of rounds on freshly built
graphs; it is the fuel of the solver loop. -/
def Graph.sourceOutCap (g : Graph) : Int :=
  ∑ k ∈ Finset.range g.edges.length,
    if k % 2 = 0 ∧ (g.edge_at k).from_node = g.source then (g.edge_at k).capacity else 0

/-- `Graph.edmonds_karp`: repeatedly runs `bfs`, accumulating the
bottlenecks, until a search returns 0.  Returns the accumulated maximum
flow together with the final graph state. -/
def Graph.edmonds_karp (g : Graph) : Int × Graph :=
  Graph.edmondsKarpLoop (g.sourceOutCap.toNat + 1) g 0

/-- Arena index of the paired edge: `add_edge` pushes the forward edge at
an even index and its residual right after it. -/
def pairIdx (k : Nat) : Nat :=
  if k % 2 = 0 then k + 1 else k - 1

/-- Structural well-formedness of one arena slot: residual cross-linking,
endpoints in range, swapped endpoints on the paired edge, non-negative
capacity on forward (even) edges and capacity 0 on residual (odd)
edges. -/
@[mk_iff]
structure Graph.EdgeWf (g : Graph) (k : Nat) : Prop where
  res_link : (g.edge_at k).residual = pairIdx k
  from_nonneg : 0 ≤ (g.edge_at k).from_node
  from_lt : (g.edge_at k).from_node < g.num_nodes
  to_nonneg : 0 ≤ (g.edge_at k).to_node
  to_lt : (g.edge_at k).to_node < g.num_nodes
  pair_from : (g.edge_at (pairIdx k)).from_node = (g.edge_at k).to_node
  pair_to : (g.edge_at (pairIdx k)).to_node = (g.edge_at k).from_node
  cap_forward : k % 2 = 0 → 0 ≤ (g.edge_at k).capacity
  cap_residual : k % 2 = 1 → (g.edge_at k).capacity = 0

instance (g : Graph) (k : Nat) : Decidable (g.EdgeWf k) :=
  decidable_of_iff _ (Graph.edgeWf_iff g k).symm

/-- Structural well-formedness of a graph state: what `__init__` followed
by a sequence of valid `add_edge` calls establishes, independent of the
flow values. -/
@[mk_iff]
structure Graph.Wf (g : Graph) : Prop where
  n_pos : 0 < g.num_nodes
  source_nonneg : 0 ≤ g.source
  source_lt : g.source < g.num_nodes
  sink_nonneg : 0 ≤ g.sink
  sink_lt : g.sink < g.num_nodes
  ne : g.source ≠ g.sink
  graph_len : g.graph.length = g.num_nodes.toNat
  len_even : g.edges.length % 2 = 0
  edge_wf : ∀ k ∈ List.range g.edges.length, g.EdgeWf k
  adj_sound : ∀ v ∈ List.range g.graph.length, ∀ k ∈ g.graph.getD v [],
    k < g.edges.length ∧ (g.edge_at k).from_node = (v : Int)

instance (g : Graph) : Decidable g.Wf :=
  decidable_of_iff _ (Graph.wf_iff g).symm

/-- Flow invariant: paired flows are opposite, and forward flows stay
between 0 and the capacity. -/
@[mk_iff]
structure Graph.FlowInv (g : Graph) : Prop where
  pair_flow : ∀ k ∈ List.range g.edges.length, k % 2 = 0 →
    (g.edge_at (k + 1)).flow = -(g.edge_at k).flow
  flow_nonneg : ∀ k ∈ List.range g.edges.length, k % 2 = 0 → 0 ≤ (g.edge_at k).flow
  flow_le_cap : ∀ k ∈ List.range g.edges.length, k % 2 = 0 →
    (g.edge_at k).flow ≤ (g.edge_at k).capacity

instance (g : Graph) : Decidable g.FlowInv :=
  decidable_of_iff _ (Graph.flowInv_iff g).symm

/-- Graph states produced by a `Graph(...)` construction with valid
arguments followed by `add_edge` calls with valid endpoints and
non-negative capacities: the "validly constructed" networks. -/
inductive Built : Graph → Prop
  | init : ∀ num_nodes source sink : Int, 0 < num_nodes →
      1 ≤ source → source ≤ num_nodes → 1 ≤ sink → sink ≤ num_nodes →
      source ≠ sink → Built (Graph.init num_nodes source sink)
  | add_edge : ∀ (g : Graph) (from_node to_node capacity : Int), Built g →
      1 ≤ from_node → from_node ≤ g.num_nodes → 1 ≤ to_node → to_node ≤ g.num_nodes →
      0 ≤ capacity → Built (g.add_edge from_node to_node capacity)

/-- The first demo network of the repository: 10 nodes, source 1, sink
10, and its 13 edges in insertion order. -/
def graph1 : Graph :=
  ((((((((((((((Graph.init 10 1 10).add_edge 1 2 5).add_edge 1 3 10).add_edge
    2 4 5).add_edge 2 5 20).add_edge 3 5 5).add_edge 3 6 20).add_edge
    4 7 10).add_edge 4 8 5).add_edge 5 7 100).add_edge 6 9 2).add_edge
    8 7 100).add_edge 7 10 5).add_edge 9 10 10)

/-- The chain of arena edge indices visited by the two back-tracking
loops: starting from `previous[sink]`, repeatedly step to
`previous[edge.from_node]`. -/
def chainFrom (g : Graph) (previous : List (Option Nat)) :
    Nat → Option Nat → List Nat
  | _, none => []
  | 0, some _ => []
  | fuel + 1, some k =>
    k :: chainFrom g previous fuel (previous.getD (g.edge_at k).from_node.toNat none)

/-- One paired flow update: add `b` to the flow of edge `k` and subtract
`b` from the flow of its residual. -/
def augmentOne (es : List Edge) (k : Nat) (b : Int) : List Edge :=
  listModify (listModify es k (fun e => { e with flow := e.flow + b }))
    ((es.getD k default).residual) (fun e => { e with flow := e.flow - b })

/-- Paired flow updates applied along a list of edge indices. -/
def augList (es : List Edge) (cs : List Nat) (b : Int) : List Edge :=
  match cs with
  | [] => es
  | k :: rest => augList (augmentOne es k b) rest b

/-- Total flow leaving node `v` on forward (even-index) arena edges. -/
def Graph.flowOut (g : Graph) (v : Int) : Int :=
  ∑ k ∈ Finset.range g.edges.length,
    if k % 2 = 0 ∧ (g.edge_at k).from_node = v then (g.edge_at k).flow else 0

/-- Total flow entering node `v` on forward (even-index) arena edges. -/
def Graph.flowIn (g : Graph) (v : Int) : Int :=
  ∑ k ∈ Finset.range g.edges.length,
    if k % 2 = 0 ∧ (g.edge_at k).to_node = v then (g.edge_at k).flow else 0

/-- `Reaches g previous m v`: following the predecessor chain from node
`v` (0-based index) hits the source after exactly `m` steps. -/
inductive Reaches (g : Graph) (previous : List (Option Nat)) : Nat → Nat → Prop
  | base : Reaches g previous 0 g.source.toNat
  | step : ∀ m v k, previous.getD v none = some k →
      Reaches g previous m (g.edge_at k).from_node.toNat →
      Reaches g previous (m + 1) v

/-- `LinksFrom g v cs`: the edge list `cs` is a back-to-front chain whose
first edge enters `v` and whose consecutive edges link up until the
source is reached. -/
def LinksFrom (g : Graph) : Nat → List Nat → Prop
  | v, [] => v = g.source.toNat
  | v, k :: rest =>
    (g.edge_at k).to_node.toNat = v ∧ LinksFrom g (g.edge_at k).from_node.toNat rest

/-- `PathTo g n v`: there is a walk of `n` edges from the source to node
`v` through adjacency-list edges with positive remaining capacity — an
augmenting path when `v` is the sink. -/
inductive PathTo (g : Graph) : Nat → Nat → Prop
  | base : PathTo g 0 g.source.toNat
  | step : ∀ n u k, PathTo g n u → k ∈ g.graph.getD u [] →
      (g.edge_at k).remaining_capacity > 0 →
      PathTo g (n + 1) (g.edge_at k).to_node.toNat

/-- The augmenting path recorded by `Graph.bfs`, as the list of arena
edge indices walked by its back-tracking loops (sink end first). -/
def Graph.bfsChain (g : Graph) : List Nat :=
  chainFrom g (g.bfsTrace).2 g.loopFuel ((g.bfsTrace).2.getD g.sink.toNat none)

/-- A fresh, field-by-field copy of a graph object (an unmutated copy of
the network, as used by the idempotence property). -/
def Graph.copy (g : Graph) : Graph :=
  { num_nodes := g.num_nodes, source := g.source, sink := g.sink,
    edges := g.edges, graph := g.graph }

/-- The flow-independent fields of an edge (capacity, endpoints, residual
link).  The searches and updates of the algorithm never change these. -/
def Edge.shape (e : Edge) : Int × Int × Int × Nat :=
  (e.capacity, e.from_node, e.to_node, e.residual)

/-- Two arenas with the same length and the same flow-independent fields
in every slot. -/
def ShapeEq (es1 es2 : List Edge) : Prop :=
  es1.length = es2.length ∧
  ∀ j : Nat, (es1.getD j default).shape = (es2.getD j default).shape

/-- `p2` records at least the predecessor entries of `p1` (entries are
written at most once by the search, so they only grow). -/
def PrevExtends (p1 p2 : List (Option Nat)) : Prop :=
  ∀ v k, p1.getD v none = some k → p2.getD v none = some k

/-- Soundness invariant of the BFS queue loop, tying the queue, the
visited array and the predecessor array to the graph. -/
structure SearchInv (g : Graph) (queue : List Int) (visited : List Bool)
    (previous : List (Option Nat)) : Prop where
  vlen : visited.length = g.num_nodes.toNat
  plen : previous.length = g.num_nodes.toNat
  src_vis : visited.getD g.source.toNat false = true
  src_prev : previous.getD g.source.toNat none = none
  prev_rec : ∀ v, v < g.num_nodes.toNat → ∀ k, previous.getD v none = some k →
    k < g.edges.length ∧ (g.edge_at k).to_node.toNat = v ∧
    k ∈ g.graph.getD (g.edge_at k).from_node.toNat [] ∧
    (g.edge_at k).remaining_capacity > 0 ∧
    visited.getD v false = true
  vis_reach : ∀ v, v < g.num_nodes.toNat → visited.getD v false = true →
    ∃ m, Reaches g previous m v
  queue_ok : ∀ x ∈ queue, 0 ≤ x ∧ x < g.num_nodes ∧ visited.getD x.toNat false = true

/-- Total capacity of the forward (even-index) arena edges leaving node
`v`. -/
def Graph.capOut (g : Graph) (v : Int) : Int :=
  ∑ k ∈ Finset.range g.edges.length,
    if k % 2 = 0 ∧ (g.edge_at k).from_node = v then (g.edge_at k).capacity else 0

/-- Total capacity of the forward (even-index) arena edges entering node
`v`. -/
def Graph.capIn (g : Graph) (v : Int) : Int :=
  ∑ k ∈ Finset.range g.edges.length,
    if k % 2 = 0 ∧ (g.edge_at k).to_node = v then (g.edge_at k).capacity else 0

/-- Termination measure of the solver loop: how much more flow can still
leave the source.  Each positive bottleneck decreases it by at least
one. -/
def Graph.ekMeasure (g : Graph) : Nat :=
  (g.capOut g.source - (g.flowOut g.source - g.flowIn g.source)).toNat

/-- What one positive `Graph.bfs` round does: it finds a chain `cs` of
arena edge indices linking the sink back to the source (each with its
residual partner not on the chain), whose minimum remaining capacity is
the positive bottleneck `b`, and augments along it. -/
structure BfsRound (g : Graph) (b : Int) (cs : List Nat) : Prop where
  links : LinksFrom g g.sink.toNat cs
  nonempty : cs ≠ []
  lt : ∀ k ∈ cs, k < g.edges.length
  adjm : ∀ k ∈ cs, k ∈ g.graph.getD (g.edge_at k).from_node.toNat []
  rem : ∀ k ∈ cs, b ≤ (g.edge_at k).remaining_capacity
  rem_mem : ∃ k ∈ cs, b = (g.edge_at k).remaining_capacity
  pos : 0 < b
  nd : cs.Nodup
  pair_nd : ∀ k ∈ cs, pairIdx k ∉ cs

/-- `DistLe g P u w c`: whenever both nodes have a recorded predecessor
distance (length of the chain to the source), the distance of `w` is at
most that of `u` plus `c`. -/
def DistLe (g : Graph) (P : List (Option Nat)) (u w : Nat) (c : Nat) : Prop :=
  ∀ mu mw, Reaches g P mu u → Reaches g P mw w → mw ≤ mu + c

/-- Completeness invariant of the BFS queue loop: the queue holds each
node at most once, in non-decreasing distance order with spread at most
one; every visited node is within distance one of every queued node; and
every visited node no longer in the queue has been fully expanded. -/
structure CompInv (g : Graph) (Q : List Int) (V : List Bool)
    (P : List (Option Nat)) : Prop where
  qnd : (Q.map Int.toNat).Nodup
  qsorted : List.Pairwise (fun a b : Int => DistLe g P b.toNat a.toNat 0) Q
  qspread : ∀ a ∈ Q, ∀ b ∈ Q, DistLe g P a.toNat b.toNat 1
  vbound : ∀ w, w < g.num_nodes.toNat → V.getD w false = true →
    ∀ x ∈ Q, DistLe g P x.toNat w 1
  expanded : ∀ u, u < g.num_nodes.toNat → V.getD u false = true →
    u ∉ Q.map Int.toNat →
    ∀ k ∈ g.graph.getD u [], (g.edge_at k).remaining_capacity > 0 →
      V.getD (g.edge_at k).to_node.toNat false = true ∧
      DistLe g P u ((g.edge_at k).to_node.toNat) 1

/-- The paired-edge invariant of the specification: following the
`residual` reference twice returns to the same edge, and the flows of an
edge and its residual are opposite. -/
def PairFlow (g : Graph) : Prop :=
  ∀ k, k < g.edges.length →
    (g.edge_at ((g.edge_at k).residual)).residual = k ∧
    (g.edge_at k).flow = -((g.edge_at ((g.edge_at k).residual)).flow)

/-- Claim C1: on the network with nodes 1..10, source 1, sink 10, and the
thirteen listed edges added in the given order, `Graph.edmonds_karp`
returns exactly 7. -/
theorem edmonds_karp_scenario1 : graph1.edmonds_karp.1 = 7 := by decide

/-- Claim C2, counterexample: the code performs no argument validation at
all.  Constructing a graph whose source and sink are equal succeeds and
builds the graph object, and `add_edge` with a negative capacity succeeds
and inserts the edge pair recording the negative capacity — no
InvalidArgument-kind failure exists anywhere in the code. -/
theorem no_invalid_argument_error_cex :
    Graph.init 3 1 1 =
      { num_nodes := 3, source := 0, sink := 0, edges := [],
        graph := [[], [], []] } ∧
    ((Graph.init 3 1 2).add_edge 1 2 (-5)).edges =
      [{ capacity := -5, from_node := 0, to_node := 1, flow := 0, residual := 1 },
       { capacity := 0, from_node := 1, to_node := 0, flow := 0, residual := 0 }] :=
  ⟨rfl, rfl⟩

/-- Claim C2 (amended): `Graph.__init__` and `Graph.add_edge` perform no
validation; even for argument tuples violating the documented
constraints (non-positive node count, equal source and sink, negative
capacity) the constructor builds the graph object and `add_edge` appends
the forward/residual edge pair, recording the offending values as
given. -/
theorem no_invalid_argument_error (num_nodes source sink f t c : Int)
    (hviol : num_nodes ≤ 0 ∨ source = sink ∨ c < 0) (g : Graph) :
    Graph.init num_nodes source sink =
      { num_nodes := num_nodes, source := source - 1, sink := sink - 1,
        edges := [], graph := List.replicate num_nodes.toNat [] } ∧
    (g.add_edge f t c).edges = g.edges ++
      [{ capacity := c, from_node := f - 1, to_node := t - 1, flow := 0,
         residual := g.edges.length + 1 },
       { capacity := 0, from_node := t - 1, to_node := f - 1, flow := 0,
         residual := g.edges.length }] := by
  exact ⟨rfl, rfl⟩

/-- Witness for the amended claim C2, at an equal source/sink pair and a
negative capacity. -/
theorem no_invalid_argument_error_witness :
    Graph.init 3 1 1 =
      { num_nodes := 3, source := 1 - 1, sink := 1 - 1, edges := [],
        graph := List.replicate (3 : Int).toNat [] } ∧
    ((Graph.init 3 1 2).add_edge 1 2 (-5)).edges = (Graph.init 3 1 2).edges ++
      [{ capacity := -5, from_node := 1 - 1, to_node := 2 - 1, flow := 0,
         residual := (Graph.init 3 1 2).edges.length + 1 },
       { capacity := 0, from_node := 2 - 1, to_node := 1 - 1, flow := 0,
         residual := (Graph.init 3 1 2).edges.length }] :=
  no_invalid_argument_error 3 1 1 1 2 (-5) (by right; left; rfl) (Graph.init 3 1 2)

theorem listModify_length {α : Type} (l : List α) (i : Nat) (f : α → α) :
    (listModify l i f).length = l.length := by
  induction l generalizing i with
  | nil => rfl
  | cons a t ih =>
    cases i with
    | zero => rfl
    | succ n => simpa [listModify] using ih n

theorem getD_listModify {α : Type} (l : List α) (i j : Nat) (f : α → α) (d : α) :
    (listModify l i f).getD j d =
      if i = j ∧ j < l.length then f (l.getD j d) else l.getD j d := by
  induction l generalizing i j with
  | nil => simp [listModify]
  | cons a t ih =>
    cases i with
    | zero =>
      cases j with
      | zero => simp [listModify]
      | succ m => simp [listModify]
    | succ n =>
      cases j with
      | zero => simp [listModify]
      | succ m =>
        simp only [listModify, List.getD_cons_succ, List.length_cons, ih]
        by_cases h : n = m ∧ m < t.length
        · rw [if_pos h, if_pos (by omega)]
        · rw [if_neg h, if_neg (by omega)]

theorem getD_set_my {α : Type} (l : List α) (i j : Nat) (a d : α) :
    (l.set i a).getD j d = if i = j ∧ j < l.length then a else l.getD j d := by
  induction l generalizing i j with
  | nil => simp
  | cons x t ih =>
    cases i with
    | zero =>
      cases j with
      | zero => simp
      | succ m => simp
    | succ n =>
      cases j with
      | zero => simp
      | succ m =>
        simp only [List.set_cons_succ, List.getD_cons_succ, List.length_cons, ih]
        by_cases h : n = m ∧ m < t.length
        · rw [if_pos h, if_pos (by omega)]
        · rw [if_neg h, if_neg (by omega)]

theorem getD_replicate_my {α : Type} (n j : Nat) (x d : α) :
    (List.replicate n x).getD j d = if j < n then x else d := by
  induction n generalizing j with
  | zero => simp
  | succ m ih =>
    cases j with
    | zero => simp [List.replicate_succ]
    | succ i =>
      simp only [List.replicate_succ, List.getD_cons_succ, ih]
      by_cases h : i < m
      · rw [if_pos h, if_pos (by omega)]
      · rw [if_neg h, if_neg (by omega)]

theorem shape_fields {e e' : Edge} (h : e.shape = e'.shape) :
    e.capacity = e'.capacity ∧ e.from_node = e'.from_node ∧
    e.to_node = e'.to_node ∧ e.residual = e'.residual := by
  simpa [Edge.shape] using h

theorem pairIdx_ne (k : Nat) : pairIdx k ≠ k := by
  unfold pairIdx; split <;> omega

theorem pairIdx_lt {k n : Nat} (hk : k < n) (hn : n % 2 = 0) : pairIdx k < n := by
  unfold pairIdx; split <;> omega

theorem pairIdx_pairIdx (k : Nat) : pairIdx (pairIdx k) = k := by
  unfold pairIdx
  by_cases h : k % 2 = 0
  · rw [if_pos h, if_neg (by omega)]
    omega
  · rw [if_neg h, if_pos (by omega)]
    omega

theorem pairIdx_even {k : Nat} (h : k % 2 = 0) : pairIdx k = k + 1 := by
  unfold pairIdx; rw [if_pos h]

theorem pairIdx_odd {k : Nat} (h : k % 2 = 1) : pairIdx k = k - 1 := by
  unfold pairIdx; rw [if_neg (by omega)]

theorem augmentOne_length (es : List Edge) (k : Nat) (b : Int) :
    (augmentOne es k b).length = es.length := by
  simp [augmentOne, listModify_length]

theorem augmentOne_shape (es : List Edge) (k : Nat) (b : Int) (j : Nat) :
    ((augmentOne es k b).getD j default).shape = (es.getD j default).shape := by
  simp only [augmentOne, getD_listModify, listModify_length]
  split_ifs <;> simp [Edge.shape]

theorem augmentOne_flow (es : List Edge) (k : Nat) (b : Int) (j : Nat)
    (hk : k < es.length) (hpk : pairIdx k < es.length)
    (hres : (es.getD k default).residual = pairIdx k) :
    ((augmentOne es k b).getD j default).flow =
      (es.getD j default).flow + (if j = k then b else 0)
        - (if j = pairIdx k then b else 0) := by
  have hne := pairIdx_ne k
  simp only [augmentOne, hres, getD_listModify, listModify_length]
  split_ifs <;> (try dsimp) <;> omega

theorem augList_length (es : List Edge) (cs : List Nat) (b : Int) :
    (augList es cs b).length = es.length := by
  induction cs generalizing es with
  | nil => rfl
  | cons k rest ih => simp [augList, ih, augmentOne_length]

theorem augList_shape (es : List Edge) (cs : List Nat) (b : Int) (j : Nat) :
    ((augList es cs b).getD j default).shape = (es.getD j default).shape := by
  induction cs generalizing es with
  | nil => rfl
  | cons k rest ih =>
    show ((augList (augmentOne es k b) rest b).getD j default).shape = _
    rw [ih, augmentOne_shape]

theorem pairIdx_eq_comm {j k : Nat} : j = pairIdx k ↔ pairIdx j = k :=
  ⟨fun h => by rw [h, pairIdx_pairIdx], fun h => by rw [← h, pairIdx_pairIdx]⟩

theorem augList_flow (es : List Edge) (cs : List Nat) (b : Int)
    (heven : es.length % 2 = 0)
    (hlt : ∀ k ∈ cs, k < es.length)
    (hres : ∀ k ∈ cs, (es.getD k default).residual = pairIdx k)
    (hnd : cs.Nodup) :
    ∀ j : Nat, ((augList es cs b).getD j default).flow =
      (es.getD j default).flow + (if j ∈ cs then b else 0)
        - (if pairIdx j ∈ cs then b else 0) := by
  induction cs generalizing es with
  | nil => simp [augList]
  | cons k rest ih =>
    intro j
    have hk : k < es.length := hlt k (List.mem_cons_self k rest)
    have hpk : pairIdx k < es.length := pairIdx_lt hk heven
    have hresk : (es.getD k default).residual = pairIdx k :=
      hres k (List.mem_cons_self k rest)
    have hknr : k ∉ rest := (List.nodup_cons.mp hnd).1
    have step : augList es (k :: rest) b = augList (augmentOne es k b) rest b := rfl
    rw [step, ih (augmentOne es k b)
      (by rw [augmentOne_length]; exact heven)
      (fun x hx => by rw [augmentOne_length]; exact hlt x (List.mem_cons_of_mem k hx))
      (fun x hx => by
        have := shape_fields (augmentOne_shape es k b x)
        rw [this.2.2.2]; exact hres x (List.mem_cons_of_mem k hx))
      (List.nodup_cons.mp hnd).2 j]
    rw [augmentOne_flow es k b j hk hpk hresk]
    simp only [pairIdx_eq_comm, List.mem_cons]
    have hpne := pairIdx_ne j
    clear ih hres hlt hnd heven step hresk hpk hk
    split_ifs
    all_goals try ring1
    all_goals try tauto
    all_goals
      exfalso
      first
        | exact hknr (‹j = k› ▸ ‹j ∈ rest›)
        | exact hknr (‹pairIdx j = k› ▸ ‹pairIdx j ∈ rest›)

theorem shapeEq_augList (es : List Edge) (cs : List Nat) (b : Int) :
    ShapeEq (augList es cs b) es :=
  ⟨augList_length es cs b, fun j => augList_shape es cs b j⟩

theorem edge_at_setEdges (g : Graph) (es : List Edge) (k : Nat) :
    ({ g with edges := es } : Graph).edge_at k = es.getD k default := rfl

theorem wf_setEdges (g : Graph) (es : List Edge) (hsh : ShapeEq es g.edges)
    (hWf : g.Wf) : Graph.Wf { g with edges := es } := by
  obtain ⟨hlen, hfield⟩ := hsh
  have hf : ∀ k : Nat,
      (es.getD k default).capacity = (g.edge_at k).capacity ∧
      (es.getD k default).from_node = (g.edge_at k).from_node ∧
      (es.getD k default).to_node = (g.edge_at k).to_node ∧
      (es.getD k default).residual = (g.edge_at k).residual :=
    fun k => shape_fields (hfield k)
  refine ⟨hWf.n_pos, hWf.source_nonneg, hWf.source_lt, hWf.sink_nonneg, hWf.sink_lt,
    hWf.ne, hWf.graph_len, ?_, ?_, ?_⟩
  · show es.length % 2 = 0
    rw [hlen]; exact hWf.len_even
  · intro k hk
    rw [List.mem_range] at hk
    have hk' : k < g.edges.length := by
      have : k < es.length := hk
      omega
    have h := hWf.edge_wf k (List.mem_range.mpr hk')
    refine ⟨?_, ?_, ?_, ?_, ?_, ?_, ?_, ?_, ?_⟩ <;>
      simp only [edge_at_setEdges, (hf k).1, (hf k).2.1, (hf k).2.2.1, (hf k).2.2.2,
        (hf (pairIdx k)).1, (hf (pairIdx k)).2.1, (hf (pairIdx k)).2.2.1,
        (hf (pairIdx k)).2.2.2]
    · exact h.res_link
    · exact h.from_nonneg
    · exact h.from_lt
    · exact h.to_nonneg
    · exact h.to_lt
    · exact h.pair_from
    · exact h.pair_to
    · exact h.cap_forward
    · exact h.cap_residual
  · intro v hv k hk
    have h := hWf.adj_sound v hv k hk
    refine ⟨?_, ?_⟩
    · show k < es.length
      omega
    · rw [edge_at_setEdges, (hf k).2.1]
      exact h.2

theorem add_edge_edge_at (g : Graph) (f t c : Int) (k : Nat) :
    (g.add_edge f t c).edge_at k =
      if k < g.edges.length then g.edge_at k
      else if k = g.edges.length then
        { Edge.init c f t with residual := g.edges.length + 1 }
      else if k = g.edges.length + 1 then
        { Edge.init 0 t f with residual := g.edges.length }
      else default := by
  show (g.edges ++ [_, _]).getD k default = _
  by_cases h : k < g.edges.length
  · rw [List.getD_append _ _ _ _ h, if_pos h]
    rfl
  · rw [if_neg h, List.getD_append_right _ _ _ _ (by omega)]
    by_cases h1 : k = g.edges.length
    · subst h1; simp
    · rw [if_neg h1]
      by_cases h2 : k = g.edges.length + 1
      · subst h2
        have : g.edges.length + 1 - g.edges.length = 1 := by omega
        rw [this]
        simp
      · rw [if_neg h2]
        apply List.getD_eq_default
        simp only [List.length_cons, List.length_nil]
        omega

theorem add_edge_length (g : Graph) (f t c : Int) :
    (g.add_edge f t c).edges.length = g.edges.length + 2 := by
  show (g.edges ++ [_, _]).length = _
  simp

theorem add_edge_graph_getD (g : Graph) (f t c : Int) (v : Nat) :
    (g.add_edge f t c).graph.getD v [] =
      (if (t - 1).toNat = v ∧ v < g.graph.length then
        (fun l => l ++ [g.edges.length + 1]) else id)
      ((if (f - 1).toNat = v ∧ v < g.graph.length then
        (fun l => l ++ [g.edges.length]) else id) (g.graph.getD v [])) := by
  show ((listModify (listModify g.graph (f - 1).toNat _) (t - 1).toNat _)).getD v [] = _
  rw [getD_listModify, getD_listModify, listModify_length]
  split_ifs <;> simp

theorem built_flow_zero {g : Graph} (h : Built g) : ∀ k, (g.edge_at k).flow = 0 := by
  induction h with
  | init n s t hn hs1 hs2 ht1 ht2 hne => intro k; rfl
  | add_edge g f t c hb hf1 hf2 ht1 ht2 hc ih =>
    intro k
    rw [add_edge_edge_at]
    split_ifs with h1 h2 h3
    · exact ih k
    · rfl
    · rfl
    · rfl

theorem built_wf {g : Graph} (h : Built g) : g.Wf := by
  induction h with
  | init n s t hn hs1 hs2 ht1 ht2 hne =>
    refine ⟨hn, ?_, ?_, ?_, ?_, ?_, ?_, ?_, ?_, ?_⟩
    · show (0 : Int) ≤ s - 1
      omega
    · show s - 1 < n
      omega
    · show (0 : Int) ≤ t - 1
      omega
    · show t - 1 < n
      omega
    · show s - 1 ≠ t - 1
      omega
    · show (List.replicate n.toNat ([] : List Nat)).length = n.toNat
      exact List.length_replicate n.toNat []
    · show ([] : List Edge).length % 2 = 0
      rfl
    · intro k hk
      simp [Graph.init] at hk
    · intro v hv k hk
      exfalso
      have hrep : (List.replicate n.toNat ([] : List Nat)).getD v [] = [] := by
        rw [getD_replicate_my]
        split <;> rfl
      rw [show (Graph.init n s t).graph = List.replicate n.toNat [] from rfl, hrep] at hk
      simp at hk
  | add_edge g f t c hb hf1 hf2 ht1 ht2 hc ih =>
    have hlen2 := add_edge_length g f t c
    have hgl : (g.add_edge f t c).graph.length = g.graph.length := by
      show (listModify (listModify g.graph _ _) _ _).length = _
      rw [listModify_length, listModify_length]
    refine ⟨ih.n_pos, ih.source_nonneg, ih.source_lt, ih.sink_nonneg, ih.sink_lt, ih.ne,
      ?_, ?_, ?_, ?_⟩
    · show (g.add_edge f t c).graph.length = g.num_nodes.toNat
      rw [hgl]
      exact ih.graph_len
    · rw [hlen2]
      have := ih.len_even
      omega
    · intro k hk
      rw [List.mem_range, hlen2] at hk
      have heven := ih.len_even
      by_cases h1 : k < g.edges.length
      · have hpk : pairIdx k < g.edges.length := pairIdx_lt h1 heven
        have he := ih.edge_wf k (List.mem_range.mpr h1)
        have hek : (g.add_edge f t c).edge_at k = g.edge_at k := by
          rw [add_edge_edge_at, if_pos h1]
        have hepk : (g.add_edge f t c).edge_at (pairIdx k) = g.edge_at (pairIdx k) := by
          rw [add_edge_edge_at, if_pos hpk]
        exact ⟨hek ▸ he.res_link, hek ▸ he.from_nonneg, hek ▸ he.from_lt,
          hek ▸ he.to_nonneg, hek ▸ he.to_lt,
          by rw [hek, hepk]; exact he.pair_from,
          by rw [hek, hepk]; exact he.pair_to,
          hek ▸ he.cap_forward, hek ▸ he.cap_residual⟩
      · by_cases h2 : k = g.edges.length
        · subst h2
          have hk0 : (g.add_edge f t c).edge_at g.edges.length =
              { Edge.init c f t with residual := g.edges.length + 1 } := by
            rw [add_edge_edge_at, if_neg (by omega), if_pos rfl]
          have hpk : pairIdx g.edges.length = g.edges.length + 1 := pairIdx_even heven
          have hk1 : (g.add_edge f t c).edge_at (pairIdx g.edges.length) =
              { Edge.init 0 t f with residual := g.edges.length } := by
            rw [hpk, add_edge_edge_at, if_neg (by omega), if_neg (by omega), if_pos rfl]
          refine ⟨?_, ?_, ?_, ?_, ?_, ?_, ?_, ?_, ?_⟩ <;> rw [hk0] <;> try rw [hk1]
          · exact hpk.symm
          · show (0 : Int) ≤ f - 1
            omega
          · show f - 1 < g.num_nodes
            omega
          · show (0 : Int) ≤ t - 1
            omega
          · show t - 1 < g.num_nodes
            omega
          · show t - 1 = t - 1
            rfl
          · show f - 1 = f - 1
            rfl
          · intro _
            exact hc
          · intro hodd
            exfalso
            omega
        · have h3 : k = g.edges.length + 1 := by omega
          subst h3
          have hk1 : (g.add_edge f t c).edge_at (g.edges.length + 1) =
              { Edge.init 0 t f with residual := g.edges.length } := by
            rw [add_edge_edge_at, if_neg (by omega), if_neg (by omega), if_pos rfl]
          have hpk : pairIdx (g.edges.length + 1) = g.edges.length := by
            rw [pairIdx_odd (by omega)]
            omega
          have hk0 : (g.add_edge f t c).edge_at (pairIdx (g.edges.length + 1)) =
              { Edge.init c f t with residual := g.edges.length + 1 } := by
            rw [hpk, add_edge_edge_at, if_neg (by omega), if_pos rfl]
          refine ⟨?_, ?_, ?_, ?_, ?_, ?_, ?_, ?_, ?_⟩ <;> rw [hk1] <;> try rw [hk0]
          · exact hpk.symm
          · show (0 : Int) ≤ t - 1
            omega
          · show t - 1 < g.num_nodes
            omega
          · show (0 : Int) ≤ f - 1
            omega
          · show f - 1 < g.num_nodes
            omega
          · show f - 1 = f - 1
            rfl
          · show t - 1 = t - 1
            rfl
          · intro heq
            exfalso
            omega
          · intro _
            rfl
    · intro v hv k hk
      rw [List.mem_range, hgl] at hv
      rw [add_edge_graph_getD] at hk
      have hf' : (0 : Int) ≤ f - 1 := by omega
      have ht' : (0 : Int) ≤ t - 1 := by omega
      split_ifs at hk with hc1 hc2 hc3
      all_goals simp only [id_eq, List.mem_append, List.mem_singleton] at hk
      · rcases hk with (hk | hk) | hk
        · have h := ih.adj_sound v (List.mem_range.mpr hv) k hk
          refine ⟨by omega, ?_⟩
          rw [add_edge_edge_at, if_pos h.1]
          exact h.2
        · subst hk
          refine ⟨by omega, ?_⟩
          rw [add_edge_edge_at, if_neg (by omega), if_pos rfl]
          show f - 1 = (v : Int)
          rw [← hc2.1]
          omega
        · subst hk
          refine ⟨by omega, ?_⟩
          rw [add_edge_edge_at, if_neg (by omega), if_neg (by omega), if_pos rfl]
          show t - 1 = (v : Int)
          rw [← hc1.1]
          omega
      · rcases hk with hk | hk
        · have h := ih.adj_sound v (List.mem_range.mpr hv) k hk
          refine ⟨by omega, ?_⟩
          rw [add_edge_edge_at, if_pos h.1]
          exact h.2
        · subst hk
          refine ⟨by omega, ?_⟩
          rw [add_edge_edge_at, if_neg (by omega), if_neg (by omega), if_pos rfl]
          show t - 1 = (v : Int)
          rw [← hc1.1]
          omega
      · rcases hk with hk | hk
        · have h := ih.adj_sound v (List.mem_range.mpr hv) k hk
          refine ⟨by omega, ?_⟩
          rw [add_edge_edge_at, if_pos h.1]
          exact h.2
        · subst hk
          refine ⟨by omega, ?_⟩
          rw [add_edge_edge_at, if_neg (by omega), if_pos rfl]
          show f - 1 = (v : Int)
          rw [← hc3.1]
          omega
      · have h := ih.adj_sound v (List.mem_range.mpr hv) k hk
        refine ⟨by omega, ?_⟩
        rw [add_edge_edge_at, if_pos h.1]
        exact h.2

theorem reaches_mono {g : Graph} {p1 p2 : List (Option Nat)} (hext : PrevExtends p1 p2) :
    ∀ {m v}, Reaches g p1 m v → Reaches g p2 m v := by
  intro m v h
  induction h with
  | base => exact Reaches.base
  | step m v k hp hr ih => exact Reaches.step m v k (hext v k hp) ih

theorem reaches_unique {g : Graph} {p : List (Option Nat)}
    (hsrc : p.getD g.source.toNat none = none) :
    ∀ {m m' v}, Reaches g p m v → Reaches g p m' v → m = m' := by
  intro m m' v h
  induction h generalizing m' with
  | base =>
    intro h2
    cases h2 with
    | base => rfl
    | step m2 v2 k hp hr => rw [hsrc] at hp; exact absurd hp (by simp)
  | step m v k hp hr ih =>
    intro h2
    cases h2 with
    | base => rw [hsrc] at hp; exact absurd hp (by simp)
    | step m2 v2 k2 hp2 hr2 =>
      rw [hp] at hp2
      injection hp2 with hk
      subst hk
      have := ih hr2
      omega

theorem reaches_lt_length {g : Graph} {p : List (Option Nat)} {m : Nat} {v : Nat}
    (h : Reaches g p m v) (hsrc_lt : g.source.toNat < p.length) : v < p.length := by
  cases h with
  | base => exact hsrc_lt
  | step m v k hp hr =>
    by_contra hc
    rw [List.getD_eq_default _ _ (by omega)] at hp
    exact absurd hp (by simp)

theorem reaches_chain_nodes {g : Graph} {p : List (Option Nat)}
    (hsrc : p.getD g.source.toNat none = none)
    (hsrc_lt : g.source.toNat < p.length) :
    ∀ {m v}, Reaches g p m v →
      ∃ ns : List Nat, ns.length = m + 1 ∧
        (∀ j, j < ns.length → Reaches g p (m - j) (ns.getD j 0)) ∧
        ns.Nodup ∧ (∀ w ∈ ns, w < p.length) := by
  intro m v h
  induction h with
  | base =>
    refine ⟨[g.source.toNat], rfl, ?_, List.nodup_singleton _, ?_⟩
    · intro j hj
      have hj0 : j = 0 := by
        simp at hj
        omega
      subst hj0
      simpa using Reaches.base
    · intro w hw
      rw [List.mem_singleton] at hw
      subst hw
      exact hsrc_lt
  | step m v k hp hr ih =>
    obtain ⟨ns, hlen, hprop, hnd, hmem⟩ := ih
    have hreach : Reaches g p (m + 1) v := Reaches.step m v k hp hr
    refine ⟨v :: ns, by simp [hlen], ?_, ?_, ?_⟩
    · intro j hj
      cases j with
      | zero => simpa using hreach
      | succ i =>
        rw [List.getD_cons_succ]
        have hi : i < ns.length := by
          simp at hj
          omega
        have := hprop i hi
        have harith : m + 1 - (i + 1) = m - i := by omega
        rw [harith]
        exact this
    · rw [List.nodup_cons]
      refine ⟨?_, hnd⟩
      intro hvin
      rw [List.mem_iff_getElem] at hvin
      obtain ⟨i, hi, hiv⟩ := hvin
      have := hprop i hi
      rw [List.getD_eq_getElem _ _ hi, hiv] at this
      have := reaches_unique hsrc hreach this
      omega
    · intro w hw
      rcases List.mem_cons.mp hw with hw | hw
      · subst hw
        exact reaches_lt_length hreach hsrc_lt
      · exact hmem w hw

theorem reaches_bound {g : Graph} {p : List (Option Nat)}
    (hsrc : p.getD g.source.toNat none = none)
    (hsrc_lt : g.source.toNat < p.length) :
    ∀ {m v}, Reaches g p m v → m < p.length := by
  intro m v h
  obtain ⟨ns, hlen, hprop, hnd, hmem⟩ := reaches_chain_nodes hsrc hsrc_lt h
  have h1 : ns.toFinset.card = ns.length := List.toFinset_card_of_nodup hnd
  have h2 : ns.toFinset ⊆ Finset.range p.length := by
    intro x hx
    rw [List.mem_toFinset] at hx
    exact Finset.mem_range.mpr (hmem x hx)
  have h3 := Finset.card_le_card h2
  rw [h1, Finset.card_range, hlen] at h3
  omega

theorem getD_set_true_mono (l : List Bool) (w v : Nat) (h : l.getD v false = true) :
    (l.set w true).getD v false = true := by
  rw [getD_set_my]
  split_ifs with h1
  · rfl
  · exact h

theorem prevExtends_refl (p : List (Option Nat)) : PrevExtends p p := fun _ _ h => h

theorem prevExtends_trans {p1 p2 p3 : List (Option Nat)}
    (h1 : PrevExtends p1 p2) (h2 : PrevExtends p2 p3) : PrevExtends p1 p3 :=
  fun v k h => h2 v k (h1 v k h)

theorem visitEdges_cons (g : Graph) (k : Nat) (ks : List Nat) (visited : List Bool)
    (previous : List (Option Nat)) (queue : List Int) :
    g.visitEdges (k :: ks) visited previous queue =
      if (g.edge_at k).remaining_capacity > 0 ∧
          visited.getD (g.edge_at k).to_node.toNat false ≠ true then
        g.visitEdges ks (visited.set (g.edge_at k).to_node.toNat true)
          (previous.set (g.edge_at k).to_node.toNat (some k))
          (queue ++ [(g.edge_at k).to_node])
      else g.visitEdges ks visited previous queue := rfl

theorem searchInv_init (g : Graph) (hWf : g.Wf) :
    SearchInv g [g.source] g.bfsVisited0 g.bfsPrevious0 := by
  have hn := hWf.n_pos
  have hs1 := hWf.source_nonneg
  have hs2 := hWf.source_lt
  have hsrc_lt : g.source.toNat < g.num_nodes.toNat := by omega
  have hv0 : ∀ v, g.bfsVisited0.getD v false = true → v = g.source.toNat := by
    intro v hv
    unfold Graph.bfsVisited0 at hv
    rw [getD_set_my] at hv
    split_ifs at hv with h1
    · exact h1.1.symm
    · rw [getD_replicate_my] at hv
      split_ifs at hv
  have hsv : g.bfsVisited0.getD g.source.toNat false = true := by
    unfold Graph.bfsVisited0
    rw [getD_set_my, if_pos ⟨rfl, by simp [hsrc_lt]⟩]
  have hp0 : ∀ v, g.bfsPrevious0.getD v none = none := by
    intro v
    unfold Graph.bfsPrevious0
    rw [getD_replicate_my]
    split <;> rfl
  constructor
  · unfold Graph.bfsVisited0
    simp
  · unfold Graph.bfsPrevious0
    simp
  · exact hsv
  · exact hp0 _
  · intro v hv k hk
    rw [hp0 v] at hk
    exact absurd hk (by simp)
  · intro v hv hvis
    have := hv0 v hvis
    subst this
    exact ⟨0, Reaches.base⟩
  · intro x hx
    rw [List.mem_singleton] at hx
    subst hx
    exact ⟨hs1, hs2, hsv⟩

theorem visitEdges_inv (g : Graph) (hWf : g.Wf) (current : Int)
    (hc1 : 0 ≤ current) (hc2 : current < g.num_nodes) :
    ∀ (ks : List Nat) (visited : List Bool) (previous : List (Option Nat)) (queue : List Int),
    (∀ k ∈ ks, k ∈ g.graph.getD current.toNat []) →
    visited.getD current.toNat false = true →
    SearchInv g queue visited previous →
    SearchInv g (g.visitEdges ks visited previous queue).2.2
      (g.visitEdges ks visited previous queue).1
      (g.visitEdges ks visited previous queue).2.1 ∧
    PrevExtends previous (g.visitEdges ks visited previous queue).2.1 ∧
    (∀ v, visited.getD v false = true →
      (g.visitEdges ks visited previous queue).1.getD v false = true) := by
  intro ks
  induction ks with
  | nil =>
    intro visited previous queue hks hcur hinv
    exact ⟨hinv, prevExtends_refl _, fun v h => h⟩
  | cons k ks ih =>
    intro visited previous queue hks hcur hinv
    rw [visitEdges_cons]
    by_cases hcond : (g.edge_at k).remaining_capacity > 0 ∧
        visited.getD (g.edge_at k).to_node.toNat false ≠ true
    · rw [if_pos hcond]
      obtain ⟨hrem, hunvis⟩ := hcond
      have hunvis' : visited.getD (g.edge_at k).to_node.toNat false = false := by
        revert hunvis
        cases visited.getD (g.edge_at k).to_node.toNat false <;> simp
      have hct : current.toNat < g.graph.length := by
        rw [hWf.graph_len]
        omega
      have hadj := hWf.adj_sound current.toNat (List.mem_range.mpr hct) k
        (hks k (List.mem_cons_self k ks))
      have hfrom : (g.edge_at k).from_node = current := by
        rw [hadj.2]
        exact Int.toNat_of_nonneg hc1
      have hew := hWf.edge_wf k (List.mem_range.mpr hadj.1)
      have hto1 := hew.to_nonneg
      have hto2 := hew.to_lt
      have hwlt : (g.edge_at k).to_node.toNat < g.num_nodes.toNat := by omega
      have hwne : (g.edge_at k).to_node.toNat ≠ g.source.toNat := by
        intro he
        rw [he, hinv.src_vis] at hunvis'
        exact absurd hunvis' (by simp)
      have hpw : previous.getD (g.edge_at k).to_node.toNat none = none := by
        cases hp : previous.getD (g.edge_at k).to_node.toNat none with
        | none => rfl
        | some k' =>
          have := (hinv.prev_rec _ hwlt k' hp).2.2.2.2
          rw [this] at hunvis'
          exact absurd hunvis' (by simp)
      have hext : PrevExtends previous
          (previous.set (g.edge_at k).to_node.toNat (some k)) := by
        intro v k' h
        rw [getD_set_my]
        split_ifs with h1
        · exfalso
          rw [← h1.1, hpw] at h
          exact absurd h (by simp)
        · exact h
      have hfromnat : (g.edge_at k).from_node.toNat = current.toNat := by
        rw [hfrom]
      have hinv' : SearchInv g (queue ++ [(g.edge_at k).to_node])
          (visited.set (g.edge_at k).to_node.toNat true)
          (previous.set (g.edge_at k).to_node.toNat (some k)) := by
        constructor
        · rw [List.length_set]
          exact hinv.vlen
        · rw [List.length_set]
          exact hinv.plen
        · exact getD_set_true_mono _ _ _ hinv.src_vis
        · rw [getD_set_my]
          split_ifs with h1
          · exact absurd h1.1 hwne
          · exact hinv.src_prev
        · intro v hv k' hk'
          rw [getD_set_my] at hk'
          split_ifs at hk' with h1
          · injection hk' with hkk
            subst hkk
            rw [← h1.1]
            refine ⟨hadj.1, rfl, ?_, hrem, ?_⟩
            · rw [hfromnat]
              exact hks k (List.mem_cons_self k ks)
            · rw [getD_set_my, if_pos ⟨rfl, by rw [hinv.vlen]; exact hwlt⟩]
          · have hold := hinv.prev_rec v hv k' hk'
            exact ⟨hold.1, hold.2.1, hold.2.2.1, hold.2.2.2.1,
              getD_set_true_mono _ _ _ hold.2.2.2.2⟩
        · intro v hv hvis
          rw [getD_set_my] at hvis
          split_ifs at hvis with h1
          · obtain ⟨m, hm⟩ := hinv.vis_reach current.toNat (by omega) hcur
            refine ⟨m + 1, Reaches.step m v k ?_ ?_⟩
            · rw [getD_set_my, if_pos ⟨h1.1, by rw [hinv.plen, ← hinv.vlen]; exact h1.2⟩]
            · rw [hfromnat]
              exact reaches_mono hext hm
          · obtain ⟨m, hm⟩ := hinv.vis_reach v hv hvis
            exact ⟨m, reaches_mono hext hm⟩
        · intro x hx
          rcases List.mem_append.mp hx with hx | hx
          · have h := hinv.queue_ok x hx
            exact ⟨h.1, h.2.1, getD_set_true_mono _ _ _ h.2.2⟩
          · rw [List.mem_singleton] at hx
            subst hx
            refine ⟨hto1, hto2, ?_⟩
            rw [getD_set_my, if_pos ⟨rfl, by rw [hinv.vlen]; exact hwlt⟩]
      have hcur' : (visited.set (g.edge_at k).to_node.toNat true).getD
          current.toNat false = true := getD_set_true_mono _ _ _ hcur
      obtain ⟨hI, hE, hM⟩ := ih (visited.set (g.edge_at k).to_node.toNat true)
        (previous.set (g.edge_at k).to_node.toNat (some k))
        (queue ++ [(g.edge_at k).to_node])
        (fun k' hk' => hks k' (List.mem_cons_of_mem k hk')) hcur' hinv'
      exact ⟨hI, prevExtends_trans hext hE, fun v h => hM v (getD_set_true_mono _ _ _ h)⟩
    · rw [if_neg hcond]
      exact ih visited previous queue
        (fun k' hk' => hks k' (List.mem_cons_of_mem k hk')) hcur hinv

theorem bfsLoop_cons (g : Graph) (fuel : Nat) (current : Int) (rest : List Int)
    (visited : List Bool) (previous : List (Option Nat)) :
    g.bfsLoop (fuel + 1) (current :: rest) visited previous =
      if current = g.sink then (visited, previous)
      else
        g.bfsLoop fuel (g.visitEdges (g.adj current) visited previous rest).2.2
          (g.visitEdges (g.adj current) visited previous rest).1
          (g.visitEdges (g.adj current) visited previous rest).2.1 := rfl

theorem searchInv_dequeue {g : Graph} {x : Int} {rest : List Int} {visited : List Bool}
    {previous : List (Option Nat)} (hinv : SearchInv g (x :: rest) visited previous) :
    SearchInv g rest visited previous :=
  ⟨hinv.vlen, hinv.plen, hinv.src_vis, hinv.src_prev, hinv.prev_rec, hinv.vis_reach,
    fun y hy => hinv.queue_ok y (List.mem_cons_of_mem x hy)⟩

theorem bfsLoop_inv (g : Graph) (hWf : g.Wf) :
    ∀ (fuel : Nat) (queue : List Int) (visited : List Bool) (previous : List (Option Nat)),
    SearchInv g queue visited previous →
    (∃ queue', SearchInv g queue' (g.bfsLoop fuel queue visited previous).1
      (g.bfsLoop fuel queue visited previous).2) ∧
    PrevExtends previous (g.bfsLoop fuel queue visited previous).2 ∧
    (∀ v, visited.getD v false = true →
      (g.bfsLoop fuel queue visited previous).1.getD v false = true) := by
  intro fuel
  induction fuel with
  | zero =>
    intro queue visited previous hinv
    exact ⟨⟨queue, hinv⟩, prevExtends_refl _, fun v h => h⟩
  | succ fuel ih =>
    intro queue visited previous hinv
    cases queue with
    | nil => exact ⟨⟨[], hinv⟩, prevExtends_refl _, fun v h => h⟩
    | cons current rest =>
      rw [bfsLoop_cons]
      by_cases hsink : current = g.sink
      · rw [if_pos hsink]
        exact ⟨⟨current :: rest, hinv⟩, prevExtends_refl _, fun v h => h⟩
      · rw [if_neg hsink]
        have hq := hinv.queue_ok current (List.mem_cons_self current rest)
        obtain ⟨hI, hE, hM⟩ := visitEdges_inv g hWf current hq.1 hq.2.1
          (g.adj current) visited previous rest (fun k hk => hk) hq.2.2
          (searchInv_dequeue hinv)
        obtain ⟨⟨q2, hI2⟩, hE2, hM2⟩ := ih _ _ _ hI
        exact ⟨⟨q2, hI2⟩, prevExtends_trans hE hE2, fun v h => hM2 v (hM v h)⟩

theorem bfsTrace_inv (g : Graph) (hWf : g.Wf) :
    ∃ queue, SearchInv g queue (g.bfsTrace).1 (g.bfsTrace).2 :=
  (bfsLoop_inv g hWf g.loopFuel [g.source] g.bfsVisited0 g.bfsPrevious0
    (searchInv_init g hWf)).1

theorem chainFrom_spec (g : Graph) (p : List (Option Nat))
    (hsrc : p.getD g.source.toNat none = none)
    (hto : ∀ v k, p.getD v none = some k → (g.edge_at k).to_node.toNat = v) :
    ∀ {m v}, Reaches g p m v → ∀ fuel, m ≤ fuel →
      (chainFrom g p fuel (p.getD v none)).length = m ∧
      LinksFrom g v (chainFrom g p fuel (p.getD v none)) ∧
      (∀ k ∈ chainFrom g p fuel (p.getD v none),
        p.getD (g.edge_at k).to_node.toNat none = some k) ∧
      (∀ j, j < m → Reaches g p (m - j)
        ((g.edge_at ((chainFrom g p fuel (p.getD v none)).getD j 0)).to_node.toNat)) ∧
      (∀ j, j < m → Reaches g p (m - j - 1)
        ((g.edge_at ((chainFrom g p fuel (p.getD v none)).getD j 0)).from_node.toNat)) := by
  intro m v h
  induction h with
  | base =>
    intro fuel hf
    rw [hsrc]
    have hch : chainFrom g p fuel none = [] := by cases fuel <;> rfl
    rw [hch]
    exact ⟨rfl, rfl, by simp, by omega, by omega⟩
  | step m v k hp hr ih =>
    intro fuel hf
    obtain ⟨fuel, rfl⟩ : ∃ f, fuel = f + 1 := ⟨fuel - 1, by omega⟩
    rw [hp]
    have hch : chainFrom g p (fuel + 1) (some k) =
        k :: chainFrom g p fuel (p.getD (g.edge_at k).from_node.toNat none) := rfl
    rw [hch]
    obtain ⟨ihlen, ihlinks, ihmem, ihto, ihfrom⟩ := ih fuel (by omega)
    have htov : (g.edge_at k).to_node.toNat = v := hto v k hp
    refine ⟨by rw [List.length_cons, ihlen], ⟨htov, ihlinks⟩, ?_, ?_, ?_⟩
    · intro k' hk'
      rcases List.mem_cons.mp hk' with h | h
      · subst h
        rw [htov]
        exact hp
      · exact ihmem k' h
    · intro j hj
      cases j with
      | zero =>
        rw [List.getD_cons_zero, htov]
        simpa using Reaches.step m v k hp hr
      | succ i =>
        rw [List.getD_cons_succ]
        have harith : m + 1 - (i + 1) = m - i := by omega
        rw [harith]
        exact ihto i (by omega)
    · intro j hj
      cases j with
      | zero =>
        rw [List.getD_cons_zero]
        simpa using hr
      | succ i =>
        rw [List.getD_cons_succ]
        have harith : m + 1 - (i + 1) - 1 = m - i - 1 := by omega
        rw [harith]
        exact ihfrom i (by omega)

theorem searchInv_hto {g : Graph} {queue : List Int} {visited : List Bool}
    {previous : List (Option Nat)} (hinv : SearchInv g queue visited previous) :
    ∀ v k, previous.getD v none = some k → (g.edge_at k).to_node.toNat = v := by
  intro v k h
  by_cases hv : v < g.num_nodes.toNat
  · exact (hinv.prev_rec v hv k h).2.1
  · rw [List.getD_eq_default _ _ (by rw [hinv.plen]; omega)] at h
    exact absurd h (by simp)

theorem minInf_fold_spec (g : Graph) (cs : List Nat) :
    ∀ a : Int,
    ∃ b : Int,
      List.foldl (fun acc k => minInf acc (g.edge_at k).remaining_capacity) (some a) cs
        = some b ∧
      b ≤ a ∧ (∀ k ∈ cs, b ≤ (g.edge_at k).remaining_capacity) ∧
      (b = a ∨ ∃ k ∈ cs, b = (g.edge_at k).remaining_capacity) := by
  induction cs with
  | nil =>
    intro a
    exact ⟨a, rfl, le_refl a, by simp, Or.inl rfl⟩
  | cons k cs ih =>
    intro a
    obtain ⟨b, h1, h2, h3, h4⟩ := ih (min a (g.edge_at k).remaining_capacity)
    refine ⟨b, h1, le_trans h2 (min_le_left _ _), ?_, ?_⟩
    · intro k' hk'
      rcases List.mem_cons.mp hk' with h | h
      · subst h
        exact le_trans h2 (min_le_right _ _)
      · exact h3 k' h
    · rcases h4 with h | ⟨k', hk', he⟩
      · rcases min_cases a (g.edge_at k).remaining_capacity with ⟨heq, _⟩ | ⟨heq, _⟩
        · exact Or.inl (h.trans heq)
        · exact Or.inr ⟨k, List.mem_cons_self k cs, h.trans heq⟩
      · exact Or.inr ⟨k', List.mem_cons_of_mem k hk', he⟩

theorem walkMin_eq_foldl (g : Graph) (p : List (Option Nat)) :
    ∀ (fuel : Nat) (ok : Option Nat) (acc : Option Int),
    g.walkMin p fuel ok acc =
      List.foldl (fun a k => minInf a (g.edge_at k).remaining_capacity) acc
        (chainFrom g p fuel ok) := by
  intro fuel
  induction fuel with
  | zero =>
    intro ok acc
    cases ok <;> rfl
  | succ fuel ih =>
    intro ok acc
    cases ok with
    | none => rfl
    | some k =>
      show g.walkMin p fuel (p.getD (g.edge_at k).from_node.toNat none)
        (minInf acc (g.edge_at k).remaining_capacity) = _
      rw [ih]
      rfl

theorem walkUpdate_eq_augList (g : Graph) (p : List (Option Nat)) :
    ∀ (fuel : Nat) (es : List Edge) (ok : Option Nat) (b : Int),
    (∀ j, (es.getD j default).shape = (g.edges.getD j default).shape) →
    walkUpdate p fuel es ok b = augList es (chainFrom g p fuel ok) b := by
  intro fuel
  induction fuel with
  | zero =>
    intro es ok b hsh
    cases ok <;> rfl
  | succ fuel ih =>
    intro es ok b hsh
    cases ok with
    | none => rfl
    | some k =>
      have hfrom : (es.getD k default).from_node = (g.edges.getD k default).from_node :=
        (shape_fields (hsh k)).2.1
      show walkUpdate p fuel (augmentOne es k b)
        (p.getD (es.getD k default).from_node.toNat none) b = _
      rw [hfrom, ih (augmentOne es k b) _ b
        (fun j => (augmentOne_shape es k b j).trans (hsh j))]
      rfl

theorem linksFrom_pathTo (g : Graph) :
    ∀ (cs : List Nat) (v : Nat),
    LinksFrom g v cs →
    (∀ k ∈ cs, k ∈ g.graph.getD (g.edge_at k).from_node.toNat []) →
    (∀ k ∈ cs, (g.edge_at k).remaining_capacity > 0) →
    PathTo g cs.length v := by
  intro cs
  induction cs with
  | nil =>
    intro v hl _ _
    rw [show LinksFrom g v [] = (v = g.source.toNat) from rfl] at hl
    subst hl
    exact PathTo.base
  | cons k cs ih =>
    intro v hl hadj hrem
    obtain ⟨hto, hl'⟩ := hl
    have hp := ih ((g.edge_at k).from_node.toNat) hl'
      (fun k' hk' => hadj k' (List.mem_cons_of_mem k hk'))
      (fun k' hk' => hrem k' (List.mem_cons_of_mem k hk'))
    have := PathTo.step cs.length _ k hp (hadj k (List.mem_cons_self k cs))
      (hrem k (List.mem_cons_self k cs))
    rw [hto] at this
    exact this

theorem chain_facts (g : Graph) (hWf : g.Wf) {queue : List Int} {visited : List Bool}
    {p : List (Option Nat)} (hinv : SearchInv g queue visited p)
    {m : Nat} {v : Nat} (hr : Reaches g p m v) (fuel : Nat) (hf : m ≤ fuel) :
    (chainFrom g p fuel (p.getD v none)).length = m ∧
    LinksFrom g v (chainFrom g p fuel (p.getD v none)) ∧
    (∀ k ∈ chainFrom g p fuel (p.getD v none), k < g.edges.length ∧
      k ∈ g.graph.getD (g.edge_at k).from_node.toNat [] ∧
      (g.edge_at k).remaining_capacity > 0) ∧
    (chainFrom g p fuel (p.getD v none)).Nodup ∧
    (∀ k ∈ chainFrom g p fuel (p.getD v none),
      pairIdx k ∉ chainFrom g p fuel (p.getD v none)) := by
  obtain ⟨hlen, hlinks, hmem, htor, hfromr⟩ :=
    chainFrom_spec g p hinv.src_prev (searchInv_hto hinv) hr fuel hf
  have hrec : ∀ k ∈ chainFrom g p fuel (p.getD v none), k < g.edges.length ∧
      k ∈ g.graph.getD (g.edge_at k).from_node.toNat [] ∧
      (g.edge_at k).remaining_capacity > 0 := by
    intro k hk
    have hm := hmem k hk
    by_cases hv' : (g.edge_at k).to_node.toNat < g.num_nodes.toNat
    · have h := hinv.prev_rec _ hv' k hm
      exact ⟨h.1, h.2.2.1, h.2.2.2.1⟩
    · rw [List.getD_eq_default _ _ (by rw [hinv.plen]; omega)] at hm
      exact absurd hm (by simp)
  refine ⟨hlen, hlinks, hrec, ?_, ?_⟩
  · rw [List.nodup_iff_injective_getElem]
    intro i j heq
    have hi : (i : Nat) < m := by
      have := i.2
      omega
    have hj : (j : Nat) < m := by
      have := j.2
      omega
    have hA : Reaches g p (m - (i : Nat))
        ((g.edge_at ((chainFrom g p fuel (p.getD v none)).getD (i : Nat) 0)).to_node.toNat) :=
      htor (i : Nat) hi
    have hB : Reaches g p (m - (j : Nat))
        ((g.edge_at ((chainFrom g p fuel (p.getD v none)).getD (j : Nat) 0)).to_node.toNat) :=
      htor (j : Nat) hj
    rw [List.getD_eq_getElem _ _ i.2] at hA
    rw [List.getD_eq_getElem _ _ j.2] at hB
    have heq' : (chainFrom g p fuel (p.getD v none))[(i : Nat)] =
        (chainFrom g p fuel (p.getD v none))[(j : Nat)] := heq
    rw [heq'] at hA
    have := reaches_unique hinv.src_prev hA hB
    exact Fin.ext (by omega)
  · intro k hk hpk
    obtain ⟨i, hi, hik⟩ := List.mem_iff_getElem.mp hk
    obtain ⟨j, hj, hjk⟩ := List.mem_iff_getElem.mp hpk
    have hklt := (hrec k hk).1
    have hew := hWf.edge_wf k (List.mem_range.mpr hklt)
    have hi' : i < m := by omega
    have hj' : j < m := by omega
    have hA := htor i hi'
    have hB := hfromr i hi'
    have hC := htor j hj'
    have hD := hfromr j hj'
    rw [List.getD_eq_getElem _ _ hi, hik] at hA hB
    rw [List.getD_eq_getElem _ _ hj, hjk] at hC hD
    rw [hew.pair_to] at hC
    rw [hew.pair_from] at hD
    have h1 := reaches_unique hinv.src_prev hA hD
    have h2 := reaches_unique hinv.src_prev hB hC
    omega

theorem bfs_def (g : Graph) :
    g.bfs = match (g.bfsTrace).2.getD g.sink.toNat none with
      | none => (0, g)
      | some _ =>
        match g.walkMin (g.bfsTrace).2 g.loopFuel
            ((g.bfsTrace).2.getD g.sink.toNat none) none with
        | none => (0, g)
        | some network_flow =>
          (network_flow, { g with edges := (walkUpdate (g.bfsTrace).2 g.loopFuel g.edges
              ((g.bfsTrace).2.getD g.sink.toNat none) network_flow) }) := rfl


theorem reaches_zero {g : Graph} {p : List (Option Nat)} {v : Nat}
    (h : Reaches g p 0 v) : v = g.source.toNat := by
  cases h
  rfl

theorem bfs_round (g : Graph) (hWf : g.Wf) :
    g.bfs = (0, g) ∨
    ∃ b cs, BfsRound g b cs ∧ g.bfs = (b, { g with edges := augList g.edges cs b }) := by
  obtain ⟨queue, hinv⟩ := bfsTrace_inv g hWf
  cases hsink : (g.bfsTrace).2.getD g.sink.toNat none with
  | none =>
    left
    rw [bfs_def, hsink]
  | some k0 =>
    right
    have hsinklt : g.sink.toNat < g.num_nodes.toNat := by
      have h1 := hWf.sink_nonneg
      have h2 := hWf.sink_lt
      omega
    have hvis : (g.bfsTrace).1.getD g.sink.toNat false = true :=
      (hinv.prev_rec g.sink.toNat hsinklt k0 hsink).2.2.2.2
    obtain ⟨m, hm⟩ := hinv.vis_reach g.sink.toNat hsinklt hvis
    have hsrclt : g.source.toNat < (g.bfsTrace).2.length := by
      rw [hinv.plen]
      have h1 := hWf.source_nonneg
      have h2 := hWf.source_lt
      omega
    have hbound : m < (g.bfsTrace).2.length :=
      reaches_bound hinv.src_prev hsrclt hm
    have hfuel : m ≤ g.loopFuel := by
      rw [hinv.plen] at hbound
      unfold Graph.loopFuel
      omega
    obtain ⟨hlen, hlinks, hrec, hnd, hpnd⟩ := chain_facts g hWf hinv hm g.loopFuel hfuel
    rw [hsink] at hlen hlinks hrec hnd hpnd
    have hm1 : 1 ≤ m := by
      rcases Nat.eq_zero_or_pos m with h0 | h
      · exfalso
        subst h0
        have heq := reaches_zero hm
        have h1 := hWf.source_nonneg
        have h2 := hWf.sink_nonneg
        have h3 := hWf.ne
        omega
      · exact h
    cases hc : chainFrom g (g.bfsTrace).2 g.loopFuel (some k0) with
    | nil =>
      exfalso
      rw [hc] at hlen
      simp at hlen
      omega
    | cons c0 cs' =>
      rw [hc] at hlen hlinks hrec hnd hpnd
      obtain ⟨b, hfold, hble, hball, hattain⟩ := minInf_fold_spec g cs'
        ((g.edge_at c0).remaining_capacity)
      have hwm : g.walkMin (g.bfsTrace).2 g.loopFuel (some k0) none = some b := by
        rw [walkMin_eq_foldl, hc]
        exact hfold
      have hrem_all : ∀ k ∈ c0 :: cs', b ≤ (g.edge_at k).remaining_capacity := by
        intro k hk
        rcases List.mem_cons.mp hk with h | h
        · subst h
          exact hble
        · exact hball k h
      have hattain' : ∃ k ∈ c0 :: cs', b = (g.edge_at k).remaining_capacity := by
        rcases hattain with h | ⟨k, hk, he⟩
        · exact ⟨c0, List.mem_cons_self c0 cs', h⟩
        · exact ⟨k, List.mem_cons_of_mem c0 hk, he⟩
      have hpos : 0 < b := by
        obtain ⟨k, hk, he⟩ := hattain'
        rw [he]
        exact (hrec k hk).2.2
      have hwu : walkUpdate (g.bfsTrace).2 g.loopFuel g.edges (some k0) b =
          augList g.edges (c0 :: cs') b := by
        rw [walkUpdate_eq_augList g _ _ _ _ _ (fun j => rfl), hc]
      refine ⟨b, c0 :: cs', ?_, ?_⟩
      · exact ⟨hlinks, by simp, fun k hk => (hrec k hk).1, fun k hk => (hrec k hk).2.1,
          hrem_all, hattain', hpos, hnd, hpnd⟩
      · rw [bfs_def, hsink]
        show (match g.walkMin (g.bfsTrace).2 g.loopFuel (some k0) none with
          | none => (0, g)
          | some network_flow =>
            (network_flow, { g with edges := (walkUpdate (g.bfsTrace).2 g.loopFuel g.edges
                (some k0) network_flow) })) = _
        rw [hwm]
        show (b, { g with edges := (walkUpdate (g.bfsTrace).2 g.loopFuel g.edges
            (some k0) b) }) = _
        rw [hwu]

theorem edge_at_def (g : Graph) (k : Nat) : g.edge_at k = g.edges.getD k default := rfl

theorem flowOut_le_capOut (g : Graph) (hFI : g.FlowInv) (v : Int) :
    g.flowOut v ≤ g.capOut v := by
  unfold Graph.flowOut Graph.capOut
  apply Finset.sum_le_sum
  intro k hk
  split_ifs with h
  · exact hFI.flow_le_cap k (List.mem_range.mpr (Finset.mem_range.mp hk)) h.1
  · exact le_refl 0

theorem flowIn_le_capIn (g : Graph) (hFI : g.FlowInv) (v : Int) :
    g.flowIn v ≤ g.capIn v := by
  unfold Graph.flowIn Graph.capIn
  apply Finset.sum_le_sum
  intro k hk
  split_ifs with h
  · exact hFI.flow_le_cap k (List.mem_range.mpr (Finset.mem_range.mp hk)) h.1
  · exact le_refl 0

theorem flowIn_nonneg (g : Graph) (hFI : g.FlowInv) (v : Int) : 0 ≤ g.flowIn v := by
  unfold Graph.flowIn
  apply Finset.sum_nonneg
  intro k hk
  split_ifs with h
  · exact hFI.flow_nonneg k (List.mem_range.mpr (Finset.mem_range.mp hk)) h.1
  · exact le_refl 0

theorem flowOut_nonneg (g : Graph) (hFI : g.FlowInv) (v : Int) : 0 ≤ g.flowOut v := by
  unfold Graph.flowOut
  apply Finset.sum_nonneg
  intro k hk
  split_ifs with h
  · exact hFI.flow_nonneg k (List.mem_range.mpr (Finset.mem_range.mp hk)) h.1
  · exact le_refl 0

theorem capOut_setEdges (g : Graph) (es : List Edge) (h : ShapeEq es g.edges) (v : Int) :
    Graph.capOut { g with edges := es } v = g.capOut v := by
  unfold Graph.capOut
  obtain ⟨hlen, hsh⟩ := h
  rw [show ({ g with edges := es } : Graph).edges = es from rfl, hlen]
  apply Finset.sum_congr rfl
  intro k hk
  have hc := shape_fields (hsh k)
  rw [edge_at_setEdges, edge_at_def, hc.1, hc.2.1]

theorem capIn_setEdges (g : Graph) (es : List Edge) (h : ShapeEq es g.edges) (v : Int) :
    Graph.capIn { g with edges := es } v = g.capIn v := by
  unfold Graph.capIn
  obtain ⟨hlen, hsh⟩ := h
  rw [show ({ g with edges := es } : Graph).edges = es from rfl, hlen]
  apply Finset.sum_congr rfl
  intro k hk
  have hc := shape_fields (hsh k)
  rw [edge_at_setEdges, edge_at_def, hc.1, hc.2.2.1]

theorem sum_indicator_delta (n : Nat) (C : Nat → Prop) [DecidablePred C] (f d : Nat → Int) :
    ∑ j ∈ Finset.range n, (if C j then f j + d j else 0) =
      (∑ j ∈ Finset.range n, if C j then f j else 0) +
      (∑ j ∈ Finset.range n, if C j then d j else 0) := by
  rw [← Finset.sum_add_distrib]
  apply Finset.sum_congr rfl
  intro j hj
  split_ifs <;> ring

theorem sum_single_delta (n k : Nat) (hk : k < n) (C : Nat → Prop) [DecidablePred C] (b : Int) :
    ∑ j ∈ Finset.range n, (if C j then (if j = k then b else 0) else 0) =
      (if C k then b else 0) := by
  have hcong : ∀ j ∈ Finset.range n, (if C j then (if j = k then b else 0) else 0) =
      (if j = k then (if C k then b else 0) else 0) := by
    intro j hj
    by_cases h : j = k
    · subst h
      simp
    · simp [h]
  rw [Finset.sum_congr rfl hcong, Finset.sum_ite_eq' (Finset.range n) k]
  rw [if_pos (Finset.mem_range.mpr hk)]

theorem flow_sum_augmentOne (es : List Edge) (k : Nat) (b : Int)
    (hres : (es.getD k default).residual = pairIdx k)
    (hk : k < es.length) (hpk : pairIdx k < es.length)
    (C : Nat → Prop) [DecidablePred C] :
    ∑ j ∈ Finset.range es.length,
        (if C j then ((augmentOne es k b).getD j default).flow else 0) =
      (∑ j ∈ Finset.range es.length, if C j then (es.getD j default).flow else 0) +
      ((if C k then b else 0) - (if C (pairIdx k) then b else 0)) := by
  have hflow : ∀ j, ((augmentOne es k b).getD j default).flow =
      (es.getD j default).flow +
        ((if j = k then b else 0) - (if j = pairIdx k then b else 0)) := by
    intro j
    rw [augmentOne_flow es k b j hk hpk hres]
    ring
  calc ∑ j ∈ Finset.range es.length,
        (if C j then ((augmentOne es k b).getD j default).flow else 0)
      = ∑ j ∈ Finset.range es.length,
        (if C j then (es.getD j default).flow +
          ((if j = k then b else 0) - (if j = pairIdx k then b else 0)) else 0) := by
        apply Finset.sum_congr rfl
        intro j hj
        rw [hflow j]
    _ = (∑ j ∈ Finset.range es.length, if C j then (es.getD j default).flow else 0) +
        (∑ j ∈ Finset.range es.length,
          if C j then ((if j = k then b else 0) - (if j = pairIdx k then b else 0)) else 0) :=
        sum_indicator_delta es.length C _ _
    _ = (∑ j ∈ Finset.range es.length, if C j then (es.getD j default).flow else 0) +
        ((∑ j ∈ Finset.range es.length, if C j then (if j = k then b else 0) else 0) -
         (∑ j ∈ Finset.range es.length, if C j then (if j = pairIdx k then b else 0) else 0)) := by
        rw [← Finset.sum_sub_distrib]
        congr 1
        apply Finset.sum_congr rfl
        intro j hj
        split_ifs <;> ring
    _ = _ := by
        rw [sum_single_delta es.length k hk C b, sum_single_delta es.length (pairIdx k) hpk C b]

theorem flowIn_as_sum (g : Graph) (v : Int) (es' : List Edge)
    (hl : es'.length = g.edges.length)
    (hs : ∀ j, (es'.getD j default).shape = (g.edges.getD j default).shape) :
    Graph.flowIn { g with edges := es' } v =
      ∑ j ∈ Finset.range g.edges.length,
        (if j % 2 = 0 ∧ (g.edge_at j).to_node = v then (es'.getD j default).flow else 0) := by
  unfold Graph.flowIn
  rw [show ({ g with edges := es' } : Graph).edges = es' from rfl, hl]
  apply Finset.sum_congr rfl
  intro j hj
  have hc := shape_fields (hs j)
  rw [edge_at_setEdges, hc.2.2.1, ← edge_at_def]

theorem flowOut_as_sum (g : Graph) (v : Int) (es' : List Edge)
    (hl : es'.length = g.edges.length)
    (hs : ∀ j, (es'.getD j default).shape = (g.edges.getD j default).shape) :
    Graph.flowOut { g with edges := es' } v =
      ∑ j ∈ Finset.range g.edges.length,
        (if j % 2 = 0 ∧ (g.edge_at j).from_node = v then (es'.getD j default).flow else 0) := by
  unfold Graph.flowOut
  rw [show ({ g with edges := es' } : Graph).edges = es' from rfl, hl]
  apply Finset.sum_congr rfl
  intro j hj
  have hc := shape_fields (hs j)
  rw [edge_at_setEdges, hc.2.1, ← edge_at_def]

theorem excess_augmentOne (g : Graph) (hWf : g.Wf) (es : List Edge) (k : Nat) (b : Int)
    (hlen : es.length = g.edges.length)
    (hsh : ∀ j, (es.getD j default).shape = (g.edges.getD j default).shape)
    (hk : k < g.edges.length) (v : Int) :
    Graph.flowIn { g with edges := augmentOne es k b } v -
      Graph.flowOut { g with edges := augmentOne es k b } v =
    (Graph.flowIn { g with edges := es } v -
      Graph.flowOut { g with edges := es } v) +
      b * ((if (g.edge_at k).to_node = v then 1 else 0) -
           (if (g.edge_at k).from_node = v then 1 else 0)) := by
  have heven := hWf.len_even
  have hew := hWf.edge_wf k (List.mem_range.mpr hk)
  have hres : (es.getD k default).residual = pairIdx k := by
    rw [(shape_fields (hsh k)).2.2.2, ← edge_at_def]
    exact hew.res_link
  have hk' : k < es.length := by omega
  have hpk' : pairIdx k < es.length := pairIdx_lt hk' (by omega)
  have hlen1 : (augmentOne es k b).length = g.edges.length := by
    rw [augmentOne_length]
    exact hlen
  have hsh1 : ∀ j, ((augmentOne es k b).getD j default).shape =
      (g.edges.getD j default).shape :=
    fun j => (augmentOne_shape es k b j).trans (hsh j)
  rw [flowIn_as_sum g v _ hlen1 hsh1, flowOut_as_sum g v _ hlen1 hsh1,
    flowIn_as_sum g v es hlen hsh, flowOut_as_sum g v es hlen hsh]
  have hin := flow_sum_augmentOne es k b hres hk' hpk'
    (fun j => j % 2 = 0 ∧ (g.edge_at j).to_node = v)
  have hout := flow_sum_augmentOne es k b hres hk' hpk'
    (fun j => j % 2 = 0 ∧ (g.edge_at j).from_node = v)
  rw [hlen] at hin hout
  rw [hin, hout]
  rw [hew.pair_to, hew.pair_from]
  by_cases hpar : k % 2 = 0
  · have h1 : pairIdx k % 2 = 1 := by
      rw [pairIdx_even hpar]
      omega
    simp only [hpar, h1]
    norm_num
    split_ifs <;> ring
  · have hpar' : k % 2 = 1 := by omega
    have h1 : pairIdx k % 2 = 0 := by
      rw [pairIdx_odd hpar']
      omega
    simp only [hpar', h1]
    norm_num
    split_ifs <;> ring

theorem excess_augList (g : Graph) (hWf : g.Wf) (b : Int) :
    ∀ (cs : List Nat) (es : List Edge) (w : Nat),
    es.length = g.edges.length →
    (∀ j, (es.getD j default).shape = (g.edges.getD j default).shape) →
    LinksFrom g w cs → (∀ k ∈ cs, k < g.edges.length) →
    ∀ v : Int,
    Graph.flowIn { g with edges := augList es cs b } v -
      Graph.flowOut { g with edges := augList es cs b } v =
    (Graph.flowIn { g with edges := es } v - Graph.flowOut { g with edges := es } v) +
      b * ((if (w : Int) = v then 1 else 0) - (if g.source = v then 1 else 0)) := by
  intro cs
  induction cs with
  | nil =>
    intro es w hlen hsh hlinks hlt v
    rw [show LinksFrom g w [] = (w = g.source.toNat) from rfl] at hlinks
    subst hlinks
    have hsrc : ((g.source.toNat : Nat) : Int) = g.source :=
      Int.toNat_of_nonneg hWf.source_nonneg
    rw [show augList es [] b = es from rfl, hsrc]
    ring
  | cons k rest ih =>
    intro es w hlen hsh hlinks hlt v
    obtain ⟨hto, hlinks'⟩ := hlinks
    have hk : k < g.edges.length := hlt k (List.mem_cons_self k rest)
    have hew := hWf.edge_wf k (List.mem_range.mpr hk)
    have hstep := excess_augmentOne g hWf es k b hlen hsh hk v
    have hlen1 : (augmentOne es k b).length = g.edges.length := by
      rw [augmentOne_length]
      exact hlen
    have hsh1 : ∀ j, ((augmentOne es k b).getD j default).shape =
        (g.edges.getD j default).shape :=
      fun j => (augmentOne_shape es k b j).trans (hsh j)
    have hih := ih (augmentOne es k b) ((g.edge_at k).from_node.toNat) hlen1 hsh1 hlinks'
      (fun k' hk' => hlt k' (List.mem_cons_of_mem k hk')) v
    rw [show augList es (k :: rest) b = augList (augmentOne es k b) rest b from rfl]
    rw [hih, hstep]
    have hfrom : (((g.edge_at k).from_node.toNat : Nat) : Int) = (g.edge_at k).from_node :=
      Int.toNat_of_nonneg hew.from_nonneg
    have htoeq : ((w : Nat) : Int) = (g.edge_at k).to_node := by
      rw [← hto]
      exact Int.toNat_of_nonneg hew.to_nonneg
    rw [hfrom, htoeq]
    ring

theorem flowInv_augList (g : Graph) (hWf : g.Wf) (hFI : g.FlowInv) {b : Int} {cs : List Nat}
    (hr : BfsRound g b cs) : Graph.FlowInv { g with edges := augList g.edges cs b } := by
  have heven := hWf.len_even
  have hlen : (augList g.edges cs b).length = g.edges.length := augList_length _ _ _
  have hflow := augList_flow g.edges cs b heven hr.lt
    (fun k hk => by
      rw [← edge_at_def]
      exact (hWf.edge_wf k (List.mem_range.mpr (hr.lt k hk))).res_link) hr.nd
  have hbpos := hr.pos
  have main : ∀ k, k < g.edges.length → k % 2 = 0 →
      ((augList g.edges cs b).getD (k + 1) default).flow =
        -((augList g.edges cs b).getD k default).flow ∧
      0 ≤ ((augList g.edges cs b).getD k default).flow ∧
      ((augList g.edges cs b).getD k default).flow ≤ (g.edge_at k).capacity := by
    intro k hk hkeven
    have hk1lt : k + 1 < g.edges.length := by omega
    have hpp : pairIdx k = k + 1 := pairIdx_even hkeven
    have hpp1 : pairIdx (k + 1) = k := by
      rw [pairIdx_odd (by omega)]
      omega
    have hf1 := hflow k
    have hf2 := hflow (k + 1)
    rw [hpp] at hf1
    rw [hpp1] at hf2
    have hpf := hFI.pair_flow k (List.mem_range.mpr hk) hkeven
    have hnn := hFI.flow_nonneg k (List.mem_range.mpr hk) hkeven
    have hlc := hFI.flow_le_cap k (List.mem_range.mpr hk) hkeven
    have hcap1 : (g.edge_at (k + 1)).capacity = 0 :=
      (hWf.edge_wf (k + 1) (List.mem_range.mpr hk1lt)).cap_residual (by omega)
    simp only [edge_at_def] at hpf hnn hlc hcap1
    by_cases hm1 : k ∈ cs <;> by_cases hm2 : (k + 1) ∈ cs
    · exact absurd hm2 (hpp ▸ hr.pair_nd k hm1)
    · have hrem := hr.rem k hm1
      rw [show (g.edge_at k).remaining_capacity =
        (g.edges.getD k default).capacity - (g.edges.getD k default).flow from rfl] at hrem
      rw [if_pos hm1, if_neg hm2] at hf1 hf2
      rw [edge_at_def]
      omega
    · have hrem := hr.rem (k + 1) hm2
      rw [show (g.edge_at (k + 1)).remaining_capacity =
        (g.edges.getD (k + 1) default).capacity - (g.edges.getD (k + 1) default).flow
        from rfl] at hrem
      rw [if_neg hm1, if_pos hm2] at hf1 hf2
      rw [edge_at_def]
      omega
    · rw [if_neg hm1, if_neg hm2] at hf1 hf2
      rw [edge_at_def]
      omega
  constructor
  · intro k hk hkeven
    rw [List.mem_range,
      show ({ g with edges := augList g.edges cs b } : Graph).edges =
        augList g.edges cs b from rfl, hlen] at hk
    rw [edge_at_setEdges, edge_at_setEdges]
    exact (main k hk hkeven).1
  · intro k hk hkeven
    rw [List.mem_range,
      show ({ g with edges := augList g.edges cs b } : Graph).edges =
        augList g.edges cs b from rfl, hlen] at hk
    rw [edge_at_setEdges]
    exact (main k hk hkeven).2.1
  · intro k hk hkeven
    rw [List.mem_range,
      show ({ g with edges := augList g.edges cs b } : Graph).edges =
        augList g.edges cs b from rfl, hlen] at hk
    rw [edge_at_setEdges]
    have hcap : ((augList g.edges cs b).getD k default).capacity = (g.edge_at k).capacity := by
      rw [(shape_fields (augList_shape g.edges cs b k)).1, ← edge_at_def]
    rw [hcap]
    exact (main k hk hkeven).2.2

theorem shapeEq_trans {es1 es2 es3 : List Edge}
    (h1 : ShapeEq es1 es2) (h2 : ShapeEq es2 es3) : ShapeEq es1 es3 :=
  ⟨h1.1.trans h2.1, fun j => (h1.2 j).trans (h2.2 j)⟩

theorem shapeEq_refl (es : List Edge) : ShapeEq es es := ⟨rfl, fun _ => rfl⟩

theorem graph_eq_setEdges (g g' : Graph) (hn : g'.num_nodes = g.num_nodes)
    (hs : g'.source = g.source) (hk : g'.sink = g.sink) (hg : g'.graph = g.graph) :
    g' = { g with edges := g'.edges } := by
  cases g'
  cases g
  simp_all

theorem bfs_cases (g : Graph) (hWf : g.Wf) (hFI : g.FlowInv) :
    g.bfs = (0, g) ∨
    (0 < (g.bfs).1 ∧ Graph.Wf (g.bfs).2 ∧ Graph.FlowInv (g.bfs).2 ∧
     ShapeEq (g.bfs).2.edges g.edges ∧
     (g.bfs).2.num_nodes = g.num_nodes ∧ (g.bfs).2.source = g.source ∧
     (g.bfs).2.sink = g.sink ∧ (g.bfs).2.graph = g.graph ∧
     (∀ v : Int, (g.bfs).2.flowIn v - (g.bfs).2.flowOut v =
       g.flowIn v - g.flowOut v +
         (g.bfs).1 * ((if g.sink = v then 1 else 0) - (if g.source = v then 1 else 0)))) := by
  rcases bfs_round g hWf with h | ⟨b, cs, hr, heq⟩
  · left
    exact h
  · right
    rw [heq]
    refine ⟨hr.pos, wf_setEdges g _ (shapeEq_augList _ _ _) hWf,
      flowInv_augList g hWf hFI hr, shapeEq_augList _ _ _, rfl, rfl, rfl, rfl, ?_⟩
    intro v
    have h := excess_augList g hWf b cs g.edges g.sink.toNat rfl (fun j => rfl)
      hr.links hr.lt v
    have hsink : ((g.sink.toNat : Nat) : Int) = g.sink := Int.toNat_of_nonneg hWf.sink_nonneg
    rw [hsink] at h
    exact h

theorem ekLoop_unfold (fuel : Nat) (g : Graph) (acc : Int) :
    Graph.edmondsKarpLoop (fuel + 1) g acc =
      if (g.bfs).1 > 0 then Graph.edmondsKarpLoop fuel (g.bfs).2 (acc + (g.bfs).1)
      else (acc + (g.bfs).1, (g.bfs).2) := rfl

theorem ekLoop_invariants (fuel : Nat) :
    ∀ (g : Graph) (acc : Int), g.Wf → g.FlowInv →
    Graph.Wf (Graph.edmondsKarpLoop fuel g acc).2 ∧
    Graph.FlowInv (Graph.edmondsKarpLoop fuel g acc).2 ∧
    ShapeEq (Graph.edmondsKarpLoop fuel g acc).2.edges g.edges ∧
    (Graph.edmondsKarpLoop fuel g acc).2.num_nodes = g.num_nodes ∧
    (Graph.edmondsKarpLoop fuel g acc).2.source = g.source ∧
    (Graph.edmondsKarpLoop fuel g acc).2.sink = g.sink ∧
    (Graph.edmondsKarpLoop fuel g acc).2.graph = g.graph ∧
    acc ≤ (Graph.edmondsKarpLoop fuel g acc).1 ∧
    (∀ v : Int,
      (Graph.edmondsKarpLoop fuel g acc).2.flowIn v -
        (Graph.edmondsKarpLoop fuel g acc).2.flowOut v =
      g.flowIn v - g.flowOut v +
        ((Graph.edmondsKarpLoop fuel g acc).1 - acc) *
          ((if g.sink = v then 1 else 0) - (if g.source = v then 1 else 0))) := by
  induction fuel with
  | zero =>
    intro g acc hWf hFI
    refine ⟨hWf, hFI, shapeEq_refl _, rfl, rfl, rfl, rfl, le_refl _, ?_⟩
    intro v
    show g.flowIn v - g.flowOut v = g.flowIn v - g.flowOut v +
      (acc - acc) * ((if g.sink = v then 1 else 0) - (if g.source = v then 1 else 0))
    ring
  | succ fuel ih =>
    intro g acc hWf hFI
    rw [ekLoop_unfold]
    rcases bfs_cases g hWf hFI with h0 | ⟨hpos, hWf', hFI', hsh', hn', hs', hk', hg', hex'⟩
    · rw [h0, if_neg (by simp)]
      refine ⟨hWf, hFI, shapeEq_refl _, rfl, rfl, rfl, rfl, by simp, ?_⟩
      intro v
      show g.flowIn v - g.flowOut v = g.flowIn v - g.flowOut v + (acc + 0 - acc) * _
      ring
    · rw [if_pos hpos]
      obtain ⟨ihWf, ihFI, ihsh, ihn, ihs, ihk, ihg, ihacc, ihex⟩ :=
        ih (g.bfs).2 (acc + (g.bfs).1) hWf' hFI'
      refine ⟨ihWf, ihFI, shapeEq_trans ihsh hsh', by rw [ihn, hn'], by rw [ihs, hs'],
        by rw [ihk, hk'], by rw [ihg, hg'], by omega, ?_⟩
      intro v
      have h1 := ihex v
      rw [hk', hs'] at h1
      have h2 := hex' v
      rw [h1, h2]
      ring

theorem ekMeasure_decreases (g : Graph) (hWf : g.Wf) (hFI : g.FlowInv)
    (hpos : 0 < (g.bfs).1) (hWf' : Graph.Wf (g.bfs).2) (hFI' : Graph.FlowInv (g.bfs).2)
    (hsh' : ShapeEq (g.bfs).2.edges g.edges)
    (hn' : (g.bfs).2.num_nodes = g.num_nodes) (hs' : (g.bfs).2.source = g.source)
    (hk' : (g.bfs).2.sink = g.sink) (hg' : (g.bfs).2.graph = g.graph)
    (hex' : ∀ v : Int, (g.bfs).2.flowIn v - (g.bfs).2.flowOut v =
       g.flowIn v - g.flowOut v +
         (g.bfs).1 * ((if g.sink = v then 1 else 0) - (if g.source = v then 1 else 0))) :
    Graph.ekMeasure (g.bfs).2 < g.ekMeasure := by
  have hge : (g.bfs).2 = { g with edges := (g.bfs).2.edges } :=
    graph_eq_setEdges g _ hn' hs' hk' hg'
  have hcap : Graph.capOut (g.bfs).2 ((g.bfs).2.source) = g.capOut g.source := by
    rw [hs']
    rw [hge]
    exact capOut_setEdges g _ hsh' g.source
  have hexs := hex' g.source
  rw [if_neg (fun h => hWf.ne h.symm), if_pos rfl] at hexs
  have hle : Graph.flowOut (g.bfs).2 ((g.bfs).2.source) ≤
      Graph.capOut (g.bfs).2 ((g.bfs).2.source) := flowOut_le_capOut _ hFI' _
  have hnn : 0 ≤ Graph.flowIn (g.bfs).2 ((g.bfs).2.source) := flowIn_nonneg _ hFI' _
  unfold Graph.ekMeasure
  rw [hcap, hs']
  rw [hcap] at hle
  rw [hs'] at hle hnn
  omega

theorem ekLoop_fuel (fuel : Nat) :
    ∀ (g : Graph) (acc : Int), g.Wf → g.FlowInv → g.ekMeasure < fuel →
    (Graph.edmondsKarpLoop fuel g acc).2.bfs =
      (0, (Graph.edmondsKarpLoop fuel g acc).2) ∧
    ∀ fuel', fuel ≤ fuel' →
      Graph.edmondsKarpLoop fuel' g acc = Graph.edmondsKarpLoop fuel g acc := by
  induction fuel with
  | zero =>
    intro g acc _ _ h
    omega
  | succ fuel ih =>
    intro g acc hWf hFI hm
    rcases bfs_cases g hWf hFI with h0 | ⟨hpos, hWf', hFI', hsh', hn', hs', hk', hg', hex'⟩
    · constructor
      · rw [ekLoop_unfold, h0, if_neg (by simp)]
        exact h0
      · intro fuel' hf'
        obtain ⟨f2, rfl⟩ : ∃ f, fuel' = f + 1 := ⟨fuel' - 1, by omega⟩
        rw [ekLoop_unfold, ekLoop_unfold, h0, if_neg (by simp), if_neg (by simp)]
    · have hdec : Graph.ekMeasure (g.bfs).2 < g.ekMeasure :=
        ekMeasure_decreases g hWf hFI hpos hWf' hFI' hsh' hn' hs' hk' hg' hex'
      obtain ⟨hstop, hstable⟩ := ih (g.bfs).2 (acc + (g.bfs).1) hWf' hFI' (by omega)
      constructor
      · rw [ekLoop_unfold, if_pos hpos]
        exact hstop
      · intro fuel' hf'
        obtain ⟨f2, rfl⟩ : ∃ f, fuel' = f + 1 := ⟨fuel' - 1, by omega⟩
        rw [ekLoop_unfold, ekLoop_unfold, if_pos hpos, if_pos hpos]
        exact hstable f2 (by omega)

theorem built_flowInv {g : Graph} (h : Built g) : g.FlowInv := by
  have hz := built_flow_zero h
  have hWf := built_wf h
  refine ⟨?_, ?_, ?_⟩
  · intro k hk hkeven
    rw [hz, hz]
    rfl
  · intro k hk hkeven
    rw [hz]
  · intro k hk hkeven
    rw [hz]
    exact (hWf.edge_wf k hk).cap_forward hkeven

theorem built_flow_sums_zero {g : Graph} (h : Built g) (v : Int) :
    g.flowOut v = 0 ∧ g.flowIn v = 0 := by
  have hz := built_flow_zero h
  constructor
  · unfold Graph.flowOut
    apply Finset.sum_eq_zero
    intro k hk
    rw [hz]
    simp
  · unfold Graph.flowIn
    apply Finset.sum_eq_zero
    intro k hk
    rw [hz]
    simp

theorem flowInv_pairFlow {g : Graph} (hWf : g.Wf) (hFI : g.FlowInv) : PairFlow g := by
  intro k hk
  have heven := hWf.len_even
  have hres := (hWf.edge_wf k (List.mem_range.mpr hk)).res_link
  have hpk : pairIdx k < g.edges.length := pairIdx_lt hk heven
  have hres2 := (hWf.edge_wf (pairIdx k) (List.mem_range.mpr hpk)).res_link
  rw [hres, hres2, pairIdx_pairIdx]
  refine ⟨rfl, ?_⟩
  by_cases hkeven : k % 2 = 0
  · rw [pairIdx_even hkeven]
    have := hFI.pair_flow k (List.mem_range.mpr hk) hkeven
    omega
  · have hodd : k % 2 = 1 := by omega
    rw [pairIdx_odd hodd]
    have hk1 : k - 1 < g.edges.length := by omega
    have heq : k - 1 + 1 = k := by omega
    have := hFI.pair_flow (k - 1) (List.mem_range.mpr hk1) (by omega)
    rw [heq] at this
    omega

theorem pairFlow_augmentOne (g : Graph) (k : Nat) (b : Int) (hWf : g.Wf)
    (hPF : PairFlow g) (hk : k < g.edges.length) :
    PairFlow { g with edges := augmentOne g.edges k b } := by
  intro j hj
  have heven := hWf.len_even
  have hlen : (augmentOne g.edges k b).length = g.edges.length := augmentOne_length _ _ _
  have hj' : j < g.edges.length := by
    have : j < ({ g with edges := augmentOne g.edges k b } : Graph).edges.length := hj
    rw [show ({ g with edges := augmentOne g.edges k b } : Graph).edges =
      augmentOne g.edges k b from rfl, hlen] at this
    exact this
  have hresj := (hWf.edge_wf j (List.mem_range.mpr hj')).res_link
  have hpj : pairIdx j < g.edges.length := pairIdx_lt hj' heven
  have hresj2 := (hWf.edge_wf (pairIdx j) (List.mem_range.mpr hpj)).res_link
  have hresk : (g.edges.getD k default).residual = pairIdx k := by
    rw [← edge_at_def]
    exact (hWf.edge_wf k (List.mem_range.mpr hk)).res_link
  have hpkk : pairIdx k < g.edges.length := pairIdx_lt hk heven
  have hshape : ∀ i : Nat, ((augmentOne g.edges k b).getD i default).residual =
      (g.edges.getD i default).residual :=
    fun i => (shape_fields (augmentOne_shape g.edges k b i)).2.2.2
  have hflow := fun i => augmentOne_flow g.edges k b i hk hpkk hresk
  simp only [edge_at_setEdges]
  rw [hshape j]
  rw [show (g.edges.getD j default).residual = pairIdx j from hresj]
  rw [hshape (pairIdx j)]
  rw [show (g.edges.getD (pairIdx j) default).residual = pairIdx (pairIdx j) from hresj2]
  rw [pairIdx_pairIdx]
  refine ⟨rfl, ?_⟩
  have h1 := hflow j
  have h2 := hflow (pairIdx j)
  have hp := (hPF j hj').2
  rw [show (g.edge_at j).residual = pairIdx j from hresj] at hp
  have hiff1 : (j = pairIdx k) ↔ (pairIdx j = k) := pairIdx_eq_comm
  have hiff2 : (pairIdx j = pairIdx k) ↔ (j = k) := by
    constructor
    · intro h
      have := congrArg pairIdx h
      rwa [pairIdx_pairIdx, pairIdx_pairIdx] at this
    · intro h
      rw [h]
  rw [h1, h2]
  simp only [edge_at_def] at hp
  by_cases c1 : j = k <;> by_cases c2 : j = pairIdx k
  · exfalso
    rw [c1] at c2
    exact pairIdx_ne k c2.symm
  · rw [if_pos c1, if_neg c2, if_neg (fun h => c2 (hiff1.mpr h)),
      if_pos (hiff2.mpr c1)]
    omega
  · rw [if_neg c1, if_pos c2, if_pos (hiff1.mp c2), if_neg (fun h => c1 (hiff2.mp h))]
    omega
  · rw [if_neg c1, if_neg c2, if_neg (fun h => c2 (hiff1.mpr h)),
      if_neg (fun h => c1 (hiff2.mp h))]
    omega

theorem sourceOutCap_eq (g : Graph) : g.sourceOutCap = g.capOut g.source := rfl

theorem built_ekMeasure {g : Graph} (hB : Built g) :
    g.ekMeasure < g.sourceOutCap.toNat + 1 := by
  unfold Graph.ekMeasure
  obtain ⟨ho, hi⟩ := built_flow_sums_zero hB g.source
  rw [ho, hi, sourceOutCap_eq]
  omega

theorem edmonds_karp_master {g : Graph} (hB : Built g) :
    Graph.Wf (g.edmonds_karp).2 ∧
    Graph.FlowInv (g.edmonds_karp).2 ∧
    ShapeEq (g.edmonds_karp).2.edges g.edges ∧
    (g.edmonds_karp).2.num_nodes = g.num_nodes ∧
    (g.edmonds_karp).2.source = g.source ∧
    (g.edmonds_karp).2.sink = g.sink ∧
    (g.edmonds_karp).2.graph = g.graph ∧
    0 ≤ (g.edmonds_karp).1 ∧
    (∀ v : Int, (g.edmonds_karp).2.flowIn v - (g.edmonds_karp).2.flowOut v =
      (g.edmonds_karp).1 *
        ((if g.sink = v then 1 else 0) - (if g.source = v then 1 else 0))) ∧
    (g.edmonds_karp).2.bfs = (0, (g.edmonds_karp).2) ∧
    (∀ fuel, g.sourceOutCap.toNat + 1 ≤ fuel →
      Graph.edmondsKarpLoop fuel g 0 = g.edmonds_karp) := by
  have hWf := built_wf hB
  have hFI := built_flowInv hB
  have hm := built_ekMeasure hB
  obtain ⟨h1, h2, h3, h4, h5, h6, h7, h8, h9⟩ :=
    ekLoop_invariants (g.sourceOutCap.toNat + 1) g 0 hWf hFI
  obtain ⟨hstop, hstable⟩ := ekLoop_fuel (g.sourceOutCap.toNat + 1) g 0 hWf hFI hm
  refine ⟨h1, h2, h3, h4, h5, h6, h7, h8, ?_, hstop, ?_⟩
  · intro v
    have h := h9 v
    obtain ⟨ho, hi⟩ := built_flow_sums_zero hB v
    rw [ho, hi] at h
    simpa using h
  · intro fuel hf
    exact hstable fuel hf

theorem built_graph1 : Built graph1 := by
  unfold graph1
  repeat
    first
      | exact Built.init 10 1 10 (by decide) (by decide) (by decide) (by decide)
          (by decide) (by decide)
      | refine Built.add_edge _ _ _ _ ?_ (by decide) (by decide) (by decide) (by decide)
          (by decide)

theorem range_facts {g : Graph} (hWf : g.Wf) (hFI : g.FlowInv) :
    ∀ k, k < g.edges.length → k % 2 = 0 →
      0 ≤ (g.edge_at k).flow ∧ (g.edge_at k).flow ≤ (g.edge_at k).capacity ∧
      (g.edge_at (k + 1)).capacity = 0 ∧ (g.edge_at (k + 1)).flow ≤ 0 := by
  intro k hk hkeven
  have hk1 : k + 1 < g.edges.length := by
    have := hWf.len_even
    omega
  have hpf := hFI.pair_flow k (List.mem_range.mpr hk) hkeven
  have hnn := hFI.flow_nonneg k (List.mem_range.mpr hk) hkeven
  have hlc := hFI.flow_le_cap k (List.mem_range.mpr hk) hkeven
  have hcap := (hWf.edge_wf (k + 1) (List.mem_range.mpr hk1)).cap_residual (by omega)
  exact ⟨hnn, hlc, hcap, by omega⟩

/-- Claim C3: for every edge created through `add_edge`, the equality
`e.flow == -e.residual.flow` holds at creation (both flows 0), is
preserved by every paired flow update performed by `Graph.bfs` (and so
by `Graph.edmonds_karp`), and holds after each `bfs` call and after
solving; moreover the pairing is an involution:
`e.residual.residual == e`. -/
theorem residual_pairing_invariant :
    (∀ g : Graph, Built g → PairFlow g) ∧
    (∀ (g : Graph) (k : Nat) (b : Int), g.Wf → PairFlow g → k < g.edges.length →
      PairFlow { g with edges := augmentOne g.edges k b }) ∧
    (∀ g : Graph, g.Wf → g.FlowInv → PairFlow (g.bfs).2) ∧
    (∀ g : Graph, g.Wf → g.FlowInv → PairFlow (g.edmonds_karp).2) := by
  refine ⟨?_, ?_, ?_, ?_⟩
  · intro g hB
    exact flowInv_pairFlow (built_wf hB) (built_flowInv hB)
  · intro g k b hWf hPF hk
    exact pairFlow_augmentOne g k b hWf hPF hk
  · intro g hWf hFI
    rcases bfs_cases g hWf hFI with h0 | ⟨_, hWf', hFI', _⟩
    · rw [h0]
      exact flowInv_pairFlow hWf hFI
    · exact flowInv_pairFlow hWf' hFI'
  · intro g hWf hFI
    obtain ⟨h1, h2, _⟩ := ekLoop_invariants (g.sourceOutCap.toNat + 1) g 0 hWf hFI
    exact flowInv_pairFlow h1 h2

/-- Witness for claim C3 at the first demo network. -/
theorem residual_pairing_invariant_witness :
    PairFlow graph1 ∧
    PairFlow { graph1 with edges := augmentOne graph1.edges 0 3 } ∧
    PairFlow (graph1.bfs).2 ∧
    PairFlow (graph1.edmonds_karp).2 :=
  ⟨residual_pairing_invariant.1 graph1 built_graph1,
   residual_pairing_invariant.2.1 graph1 0 3 (by decide)
     (residual_pairing_invariant.1 graph1 built_graph1) (by decide),
   residual_pairing_invariant.2.2.1 graph1 (by decide) (by decide),
   residual_pairing_invariant.2.2.2 graph1 (by decide) (by decide)⟩

/-- Claim C4: for every forward edge (even arena slot, created with the
caller-requested capacity) of a validly constructed network,
`0 ≤ flow ≤ capacity` holds initially, after each `Graph.bfs` call, and
after `Graph.edmonds_karp` returns; residual edges have capacity 0 and
flow that is only ever 0 or negative. -/
theorem flow_range_invariant :
    (∀ g : Graph, Built g → ∀ k, k < g.edges.length → k % 2 = 0 →
      0 ≤ (g.edge_at k).flow ∧ (g.edge_at k).flow ≤ (g.edge_at k).capacity ∧
      (g.edge_at (k + 1)).capacity = 0 ∧ (g.edge_at (k + 1)).flow ≤ 0) ∧
    (∀ g : Graph, g.Wf → g.FlowInv →
      ∀ k, k < (g.bfs).2.edges.length → k % 2 = 0 →
      0 ≤ ((g.bfs).2.edge_at k).flow ∧
      ((g.bfs).2.edge_at k).flow ≤ ((g.bfs).2.edge_at k).capacity ∧
      ((g.bfs).2.edge_at (k + 1)).capacity = 0 ∧
      ((g.bfs).2.edge_at (k + 1)).flow ≤ 0) ∧
    (∀ g : Graph, g.Wf → g.FlowInv →
      ∀ k, k < (g.edmonds_karp).2.edges.length → k % 2 = 0 →
      0 ≤ ((g.edmonds_karp).2.edge_at k).flow ∧
      ((g.edmonds_karp).2.edge_at k).flow ≤ ((g.edmonds_karp).2.edge_at k).capacity ∧
      ((g.edmonds_karp).2.edge_at (k + 1)).capacity = 0 ∧
      ((g.edmonds_karp).2.edge_at (k + 1)).flow ≤ 0) := by
  refine ⟨?_, ?_, ?_⟩
  · intro g hB
    exact range_facts (built_wf hB) (built_flowInv hB)
  · intro g hWf hFI
    rcases bfs_cases g hWf hFI with h0 | ⟨_, hWf', hFI', _⟩
    · rw [h0]
      exact range_facts hWf hFI
    · exact range_facts hWf' hFI'
  · intro g hWf hFI
    obtain ⟨h1, h2, _⟩ := ekLoop_invariants (g.sourceOutCap.toNat + 1) g 0 hWf hFI
    exact range_facts h1 h2

/-- Witness for claim C4 at the first demo network and its first edge
pair. -/
theorem flow_range_invariant_witness :
    (0 ≤ (graph1.edge_at 0).flow ∧
      (graph1.edge_at 0).flow ≤ (graph1.edge_at 0).capacity ∧
      (graph1.edge_at 1).capacity = 0 ∧ (graph1.edge_at 1).flow ≤ 0) ∧
    (0 ≤ ((graph1.bfs).2.edge_at 0).flow ∧
      ((graph1.bfs).2.edge_at 0).flow ≤ ((graph1.bfs).2.edge_at 0).capacity ∧
      ((graph1.bfs).2.edge_at 1).capacity = 0 ∧
      ((graph1.bfs).2.edge_at 1).flow ≤ 0) ∧
    (0 ≤ ((graph1.edmonds_karp).2.edge_at 0).flow ∧
      ((graph1.edmonds_karp).2.edge_at 0).flow ≤
        ((graph1.edmonds_karp).2.edge_at 0).capacity ∧
      ((graph1.edmonds_karp).2.edge_at 1).capacity = 0 ∧
      ((graph1.edmonds_karp).2.edge_at 1).flow ≤ 0) :=
  ⟨flow_range_invariant.1 graph1 built_graph1 0 (by decide) (by decide),
   flow_range_invariant.2.1 graph1 (by decide) (by decide) 0 (by decide) (by decide),
   flow_range_invariant.2.2 graph1 (by decide) (by decide) 0 (by decide) (by decide)⟩

/-- Claim C5: on every validly constructed finite network with
non-negative integer capacities, the solver loop terminates — running
`edmondsKarpLoop` with any fuel at least the built-in bound changes
nothing, because the loop has already stopped on a zero bottleneck — and
`Graph.edmonds_karp` returns a non-negative value. -/
theorem edmonds_karp_total (g : Graph) (hB : Built g) :
    (∀ fuel, g.sourceOutCap.toNat + 1 ≤ fuel →
      Graph.edmondsKarpLoop fuel g 0 = g.edmonds_karp) ∧
    0 ≤ (g.edmonds_karp).1 :=
  ⟨(edmonds_karp_master hB).2.2.2.2.2.2.2.2.2.2,
   (edmonds_karp_master hB).2.2.2.2.2.2.2.1⟩

/-- Witness for claim C5 at the first demo network. -/
theorem edmonds_karp_total_witness :
    Graph.edmondsKarpLoop 100 graph1 0 = graph1.edmonds_karp ∧
    0 ≤ (graph1.edmonds_karp).1 :=
  ⟨(edmonds_karp_total graph1 built_graph1).1 100 (by decide),
   (edmonds_karp_total graph1 built_graph1).2⟩

/-- Claim C6: for every validly constructed network, the value returned
by `Graph.edmonds_karp` is at most the total capacity of the forward
edges leaving the source, and at most the total capacity of the forward
edges entering the sink. -/
theorem edmonds_karp_bounded (g : Graph) (hB : Built g) :
    (g.edmonds_karp).1 ≤ g.capOut g.source ∧
    (g.edmonds_karp).1 ≤ g.capIn g.sink := by
  obtain ⟨h1, h2, h3, h4, h5, h6, h7, h8, h9, _⟩ := edmonds_karp_master hB
  have hWf := built_wf hB
  have hge : (g.edmonds_karp).2 = { g with edges := (g.edmonds_karp).2.edges } :=
    graph_eq_setEdges g _ h4 h5 h6 h7
  constructor
  · have hexs := h9 g.source
    rw [if_neg (fun h => hWf.ne h.symm), if_pos rfl] at hexs
    have hle : Graph.flowOut (g.edmonds_karp).2 g.source ≤
        Graph.capOut (g.edmonds_karp).2 g.source := flowOut_le_capOut _ h2 _
    have hnn : 0 ≤ Graph.flowIn (g.edmonds_karp).2 g.source := flowIn_nonneg _ h2 _
    have hcap : Graph.capOut (g.edmonds_karp).2 g.source = g.capOut g.source := by
      rw [hge]
      exact capOut_setEdges g _ h3 g.source
    rw [hcap] at hle
    ring_nf at hexs
    omega
  · have hexs := h9 g.sink
    rw [if_pos rfl, if_neg hWf.ne] at hexs
    have hle : Graph.flowIn (g.edmonds_karp).2 g.sink ≤
        Graph.capIn (g.edmonds_karp).2 g.sink := flowIn_le_capIn _ h2 _
    have hnn : 0 ≤ Graph.flowOut (g.edmonds_karp).2 g.sink := flowOut_nonneg _ h2 _
    have hcap : Graph.capIn (g.edmonds_karp).2 g.sink = g.capIn g.sink := by
      rw [hge]
      exact capIn_setEdges g _ h3 g.sink
    rw [hcap] at hle
    ring_nf at hexs
    omega

/-- Witness for claim C6 at the first demo network. -/
theorem edmonds_karp_bounded_witness :
    (graph1.edmonds_karp).1 ≤ graph1.capOut graph1.source ∧
    (graph1.edmonds_karp).1 ≤ graph1.capIn graph1.sink :=
  edmonds_karp_bounded graph1 built_graph1

/-- Claim C9: after `Graph.edmonds_karp` returns on a validly
constructed network, flow is conserved: at every node other than the
source and the sink, the total flow entering on forward edges equals the
total flow leaving on forward edges (residual edges excluded). -/
theorem flow_conservation (g : Graph) (hB : Built g) (v : Int)
    (hvs : v ≠ g.source) (hvt : v ≠ g.sink) :
    Graph.flowIn (g.edmonds_karp).2 v = Graph.flowOut (g.edmonds_karp).2 v := by
  obtain ⟨_, _, _, _, _, _, _, _, h9, _⟩ := edmonds_karp_master hB
  have h := h9 v
  rw [if_neg (fun hh => hvt hh.symm), if_neg (fun hh => hvs hh.symm)] at h
  have hz : (g.edmonds_karp).1 * ((0 : Int) - 0) = 0 := by ring
  rw [hz] at h
  omega

/-- Witness for claim C9 at internal node index 2 of the first demo
network. -/
theorem flow_conservation_witness :
    Graph.flowIn (graph1.edmonds_karp).2 2 = Graph.flowOut (graph1.edmonds_karp).2 2 :=
  flow_conservation graph1 built_graph1 2 (by decide) (by decide)

/-- Claim C7: calling `Graph.edmonds_karp` a second time on the solved,
unmodified network object returns 0, and calling it on a fresh
field-by-field copy of the original network returns the same result as
the original call. -/
theorem solve_idempotent (g : Graph) (hB : Built g) :
    ((g.edmonds_karp).2.edmonds_karp).1 = 0 ∧
    (g.copy).edmonds_karp = g.edmonds_karp := by
  obtain ⟨_, _, _, _, _, _, _, _, _, hstop, _⟩ := edmonds_karp_master hB
  constructor
  · show (Graph.edmondsKarpLoop ((g.edmonds_karp).2.sourceOutCap.toNat + 1)
      (g.edmonds_karp).2 0).1 = 0
    rw [ekLoop_unfold, hstop, if_neg (by simp)]
    simp
  · rfl

/-- Witness for claim C7 at the first demo network. -/
theorem solve_idempotent_witness :
    ((graph1.edmonds_karp).2.edmonds_karp).1 = 0 ∧
    (graph1.copy).edmonds_karp = graph1.edmonds_karp :=
  solve_idempotent graph1 built_graph1

/-- When no augmenting path exists, the search invariant rules out a
recorded predecessor of the sink, so `bfs` takes its early-return branch
and leaves the state untouched. -/
theorem bfs_zero_of_no_path (g : Graph) (hWf : g.Wf)
    (hnp : ∀ n, ¬ PathTo g n g.sink.toNat) : g.bfs = (0, g) := by
  obtain ⟨queue, hinv⟩ := bfsTrace_inv g hWf
  cases hsink : (g.bfsTrace).2.getD g.sink.toNat none with
  | none => rw [bfs_def, hsink]
  | some k0 =>
    exfalso
    have hsinklt : g.sink.toNat < g.num_nodes.toNat := by
      have h1 := hWf.sink_nonneg
      have h2 := hWf.sink_lt
      omega
    have hvis : (g.bfsTrace).1.getD g.sink.toNat false = true :=
      (hinv.prev_rec g.sink.toNat hsinklt k0 hsink).2.2.2.2
    obtain ⟨m, hm⟩ := hinv.vis_reach g.sink.toNat hsinklt hvis
    have hsrclt : g.source.toNat < (g.bfsTrace).2.length := by
      rw [hinv.plen]
      have h1 := hWf.source_nonneg
      have h2 := hWf.source_lt
      omega
    have hbound : m < (g.bfsTrace).2.length :=
      reaches_bound hinv.src_prev hsrclt hm
    have hfuel : m ≤ g.loopFuel := by
      rw [hinv.plen] at hbound
      unfold Graph.loopFuel
      omega
    obtain ⟨hlen, hlinks, hrec, hnd, hpnd⟩ := chain_facts g hWf hinv hm g.loopFuel hfuel
    have hpath := linksFrom_pathTo g _ _ hlinks
      (fun k hk => (hrec k hk).2.1) (fun k hk => (hrec k hk).2.2)
    rw [hlen] at hpath
    exact hnp m hpath

/-- Claim C10: whenever no augmenting path from source to sink exists
(no walk over adjacency edges with positive remaining capacity reaches
the sink), `Graph.bfs` returns 0 and leaves the graph state — every edge
and every other field — exactly as it was: the zero-bottleneck search is
read-only. -/
theorem bfs_no_augmenting_path (g : Graph) (hWf : g.Wf)
    (hnp : ∀ n, ¬ PathTo g n g.sink.toNat) : g.bfs = (0, g) :=
  bfs_zero_of_no_path g hWf hnp

theorem pathTo_two_node (n : Nat) (v : Nat) (h : PathTo (Graph.init 2 1 2) n v) :
    v = 0 := by
  induction h with
  | base => rfl
  | step n u k hp hmem hrem ih =>
    exfalso
    have hrep : (Graph.init 2 1 2).graph.getD u [] = [] := by
      show (List.replicate (2 : Int).toNat ([] : List Nat)).getD u [] = []
      rw [getD_replicate_my]
      split <;> rfl
    rw [hrep] at hmem
    exact absurd hmem (by simp)

/-- Witness for claim C10: the two-node network with no edges has no
augmenting path, and `bfs` on it returns 0 with the state untouched. -/
theorem bfs_no_augmenting_path_witness :
    (Graph.init 2 1 2).bfs = (0, Graph.init 2 1 2) :=
  bfs_no_augmenting_path (Graph.init 2 1 2) (by decide)
    (fun n hp => absurd (pathTo_two_node n _ hp) (by decide))

theorem distLe_mono {g : Graph} {P P' : List (Option Nat)} {u w c : Nat}
    (hsrc' : P'.getD g.source.toNat none = none) (hext : PrevExtends P P')
    (hu : ∃ m, Reaches g P m u) (hw : ∃ m, Reaches g P m w)
    (h : DistLe g P u w c) : DistLe g P' u w c := by
  intro mu mw hu' hw'
  obtain ⟨m1, hm1⟩ := hu
  obtain ⟨m2, hm2⟩ := hw
  have e1 := reaches_unique hsrc' (reaches_mono hext hm1) hu'
  have e2 := reaches_unique hsrc' (reaches_mono hext hm2) hw'
  have := h m1 m2 hm1 hm2
  omega

theorem distLe_of_values {g : Graph} {P : List (Option Nat)} {u w c mu mw : Nat}
    (hsrc : P.getD g.source.toNat none = none)
    (hu : Reaches g P mu u) (hw : Reaches g P mw w) (hle : mw ≤ mu + c) :
    DistLe g P u w c := by
  intro mu' mw' hu' hw'
  have e1 := reaches_unique hsrc hu hu'
  have e2 := reaches_unique hsrc hw hw'
  omega

theorem count_false_set (V : List Bool) (w : Nat) (hw : w < V.length)
    (hf : V.getD w false = false) :
    (V.set w true).count false + 1 = V.count false := by
  induction V generalizing w with
  | nil => simp at hw
  | cons a t ih =>
    cases w with
    | zero =>
      rw [List.getD_cons_zero] at hf
      subst hf
      simp [List.count_cons]
    | succ m =>
      rw [List.getD_cons_succ] at hf
      have hm : m < t.length := by
        simp at hw
        omega
      have := ih m hm hf
      simp only [List.set_cons_succ, List.count_cons]
      split_ifs <;> omega

theorem mark_inv (g : Graph) (hWf : g.Wf) (current : Int)
    (hc1 : 0 ≤ current) (hc2 : current < g.num_nodes) (k : Nat)
    (hkadj : k ∈ g.graph.getD current.toNat [])
    (V : List Bool) (P : List (Option Nat)) (Q : List Int)
    (hcur : V.getD current.toNat false = true)
    (hinv : SearchInv g Q V P)
    (hrem : (g.edge_at k).remaining_capacity > 0)
    (hunvis : V.getD (g.edge_at k).to_node.toNat false ≠ true) :
    SearchInv g (Q ++ [(g.edge_at k).to_node])
      (V.set (g.edge_at k).to_node.toNat true)
      (P.set (g.edge_at k).to_node.toNat (some k)) ∧
    PrevExtends P (P.set (g.edge_at k).to_node.toNat (some k)) ∧
    P.getD (g.edge_at k).to_node.toNat none = none ∧
    (∀ du, Reaches g P du current.toNat →
      Reaches g (P.set (g.edge_at k).to_node.toNat (some k)) (du + 1)
        ((g.edge_at k).to_node.toNat)) ∧
    (g.edge_at k).to_node.toNat < g.num_nodes.toNat ∧
    (g.edge_at k).to_node.toNat ≠ g.source.toNat := by
  have hunvis' : V.getD (g.edge_at k).to_node.toNat false = false := by
    revert hunvis
    cases V.getD (g.edge_at k).to_node.toNat false <;> simp
  have hct : current.toNat < g.graph.length := by
    rw [hWf.graph_len]
    omega
  have hadj := hWf.adj_sound current.toNat (List.mem_range.mpr hct) k hkadj
  have hfrom : (g.edge_at k).from_node = current := by
    rw [hadj.2]
    exact Int.toNat_of_nonneg hc1
  have hew := hWf.edge_wf k (List.mem_range.mpr hadj.1)
  have hto1 := hew.to_nonneg
  have hto2 := hew.to_lt
  have hwlt : (g.edge_at k).to_node.toNat < g.num_nodes.toNat := by omega
  have hwne : (g.edge_at k).to_node.toNat ≠ g.source.toNat := by
    intro he
    rw [he, hinv.src_vis] at hunvis'
    exact absurd hunvis' (by simp)
  have hpw : P.getD (g.edge_at k).to_node.toNat none = none := by
    cases hp : P.getD (g.edge_at k).to_node.toNat none with
    | none => rfl
    | some k' =>
      have := (hinv.prev_rec _ hwlt k' hp).2.2.2.2
      rw [this] at hunvis'
      exact absurd hunvis' (by simp)
  have hext : PrevExtends P (P.set (g.edge_at k).to_node.toNat (some k)) := by
    intro v k' h
    rw [getD_set_my]
    split_ifs with h1
    · exfalso
      rw [← h1.1, hpw] at h
      exact absurd h (by simp)
    · exact h
  have hfromnat : (g.edge_at k).from_node.toNat = current.toNat := by
    rw [hfrom]
  have hpset : (P.set (g.edge_at k).to_node.toNat (some k)).getD
      (g.edge_at k).to_node.toNat none = some k := by
    rw [getD_set_my, if_pos ⟨rfl, by rw [hinv.plen]; exact hwlt⟩]
  refine ⟨?_, hext, hpw, ?_, hwlt, hwne⟩
  · constructor
    · rw [List.length_set]
      exact hinv.vlen
    · rw [List.length_set]
      exact hinv.plen
    · exact getD_set_true_mono _ _ _ hinv.src_vis
    · rw [getD_set_my]
      split_ifs with h1
      · exact absurd h1.1 hwne
      · exact hinv.src_prev
    · intro v hv k' hk'
      rw [getD_set_my] at hk'
      split_ifs at hk' with h1
      · injection hk' with hkk
        subst hkk
        rw [← h1.1]
        refine ⟨hadj.1, rfl, ?_, hrem, ?_⟩
        · rw [hfromnat]
          exact hkadj
        · rw [getD_set_my, if_pos ⟨rfl, by rw [hinv.vlen]; exact hwlt⟩]
      · have hold := hinv.prev_rec v hv k' hk'
        exact ⟨hold.1, hold.2.1, hold.2.2.1, hold.2.2.2.1,
          getD_set_true_mono _ _ _ hold.2.2.2.2⟩
    · intro v hv hvis
      rw [getD_set_my] at hvis
      split_ifs at hvis with h1
      · obtain ⟨m, hm⟩ := hinv.vis_reach current.toNat (by omega) hcur
        refine ⟨m + 1, Reaches.step m v k ?_ ?_⟩
        · rw [getD_set_my, if_pos ⟨h1.1, by rw [hinv.plen, ← hinv.vlen]; exact h1.2⟩]
        · rw [hfromnat]
          exact reaches_mono hext hm
      · obtain ⟨m, hm⟩ := hinv.vis_reach v hv hvis
        exact ⟨m, reaches_mono hext hm⟩
    · intro x hx
      rcases List.mem_append.mp hx with hx | hx
      · have h := hinv.queue_ok x hx
        exact ⟨h.1, h.2.1, getD_set_true_mono _ _ _ h.2.2⟩
      · rw [List.mem_singleton] at hx
        subst hx
        refine ⟨hto1, hto2, ?_⟩
        rw [getD_set_my, if_pos ⟨rfl, by rw [hinv.vlen]; exact hwlt⟩]
  · intro du hdu
    refine Reaches.step du _ k hpset ?_
    rw [hfromnat]
    exact reaches_mono hext hdu

theorem distLe_comp {g : Graph} {P : List (Option Nat)} {a b u ca cb du : Nat}
    (hdu : Reaches g P du u)
    (h1 : DistLe g P a u ca) (h2 : DistLe g P u b cb) : DistLe g P a b (ca + cb) := by
  intro ma mb hma hmb
  have t1 := h1 ma du hma hdu
  have t2 := h2 du mb hdu hmb
  omega

theorem visitEdges_potential (g : Graph) :
    ∀ (ks : List Nat) (V : List Bool) (P : List (Option Nat)) (Q : List Int),
    (∀ k ∈ ks, (g.edge_at k).to_node.toNat < V.length) →
    (g.visitEdges ks V P Q).1.count false + (g.visitEdges ks V P Q).2.2.length =
      V.count false + Q.length := by
  intro ks
  induction ks with
  | nil =>
    intro V P Q h
    rfl
  | cons k ks ih =>
    intro V P Q h
    rw [visitEdges_cons]
    by_cases hcond : (g.edge_at k).remaining_capacity > 0 ∧
        V.getD (g.edge_at k).to_node.toNat false ≠ true
    · rw [if_pos hcond]
      have hw : (g.edge_at k).to_node.toNat < V.length := h k (List.mem_cons_self k ks)
      have hf : V.getD (g.edge_at k).to_node.toNat false = false := by
        obtain ⟨_, h2⟩ := hcond
        revert h2
        cases V.getD (g.edge_at k).to_node.toNat false <;> simp
      rw [ih _ _ _ (fun k' hk' => by
        rw [List.length_set]
        exact h k' (List.mem_cons_of_mem k hk'))]
      have hc := count_false_set V _ hw hf
      rw [List.length_append]
      simp only [List.length_singleton]
      omega
    · rw [if_neg hcond]
      exact ih _ _ _ (fun k' hk' => h k' (List.mem_cons_of_mem k hk'))

theorem visitEdges_comp (g : Graph) (hWf : g.Wf) (current : Int)
    (hc1 : 0 ≤ current) (hc2 : current < g.num_nodes) :
    ∀ (ks pre : List Nat) (V : List Bool) (P : List (Option Nat)) (Q : List Int) (du : Nat),
    g.graph.getD current.toNat [] = pre ++ ks →
    V.getD current.toNat false = true →
    SearchInv g Q V P →
    Reaches g P du current.toNat →
    current.toNat ∉ Q.map Int.toNat →
    (Q.map Int.toNat).Nodup →
    List.Pairwise (fun a b : Int => DistLe g P b.toNat a.toNat 0) Q →
    (∀ x ∈ Q, DistLe g P x.toNat current.toNat 0) →
    (∀ x ∈ Q, DistLe g P current.toNat x.toNat 1) →
    (∀ w, w < g.num_nodes.toNat → V.getD w false = true →
      DistLe g P current.toNat w 1) →
    (∀ u', u' < g.num_nodes.toNat → V.getD u' false = true →
      u' ∉ Q.map Int.toNat → u' ≠ current.toNat →
      ∀ k ∈ g.graph.getD u' [], (g.edge_at k).remaining_capacity > 0 →
        V.getD (g.edge_at k).to_node.toNat false = true ∧
        DistLe g P u' ((g.edge_at k).to_node.toNat) 1) →
    (∀ k ∈ pre, (g.edge_at k).remaining_capacity > 0 →
      V.getD (g.edge_at k).to_node.toNat false = true ∧
      DistLe g P current.toNat ((g.edge_at k).to_node.toNat) 1) →
    SearchInv g (g.visitEdges ks V P Q).2.2 (g.visitEdges ks V P Q).1
      (g.visitEdges ks V P Q).2.1 ∧
    CompInv g (g.visitEdges ks V P Q).2.2 (g.visitEdges ks V P Q).1
      (g.visitEdges ks V P Q).2.1 := by
  intro ks
  induction ks with
  | nil =>
    intro pre V P Q du hsplit hcur hinv hdu hnotin hqnd hqsorted hlb hub hvb hexp hpre
    rw [List.append_nil] at hsplit
    refine ⟨hinv, ?_⟩
    constructor
    · exact hqnd
    · exact hqsorted
    · intro a ha b hb
      exact distLe_comp hdu (hlb a ha) (hub b hb)
    · intro w hw hwv x hx
      exact distLe_comp hdu (hlb x hx) (hvb w hw hwv)
    · intro u' hu' hu'v hu'q k hk hkrem
      by_cases hc : u' = current.toNat
      · subst hc
        rw [← hsplit] at hpre
        exact hpre k hk hkrem
      · exact hexp u' hu' hu'v hu'q hc k hk hkrem
  | cons k ks ih =>
    intro pre V P Q du hsplit hcur hinv hdu hnotin hqnd hqsorted hlb hub hvb hexp hpre
    have hkadj : k ∈ g.graph.getD current.toNat [] := by
      rw [hsplit]
      exact List.mem_append.mpr (Or.inr (List.mem_cons_self k ks))
    have hsplit' : g.graph.getD current.toNat [] = (pre ++ [k]) ++ ks := by
      rw [hsplit, List.append_assoc]
      rfl
    have hct : current.toNat < g.graph.length := by
      rw [hWf.graph_len]
      omega
    have hadjk := hWf.adj_sound current.toNat (List.mem_range.mpr hct) k hkadj
    have hewk := hWf.edge_wf k (List.mem_range.mpr hadjk.1)
    have hwin : (g.edge_at k).to_node.toNat < g.num_nodes.toNat := by
      have h1 := hewk.to_nonneg
      have h2 := hewk.to_lt
      omega
    rw [visitEdges_cons]
    by_cases hcond : (g.edge_at k).remaining_capacity > 0 ∧
        V.getD (g.edge_at k).to_node.toNat false ≠ true
    · rw [if_pos hcond]
      obtain ⟨hinv', hext, hpw, hnew, hwlt, hwne⟩ :=
        mark_inv g hWf current hc1 hc2 k hkadj V P Q hcur hinv hcond.1 hcond.2
      have hsrc' := hinv'.src_prev
      have hwunvis : V.getD (g.edge_at k).to_node.toNat false = false := by
        have h2 := hcond.2
        revert h2
        cases V.getD (g.edge_at k).to_node.toNat false <;> simp
      have hwreach : Reaches g (P.set (g.edge_at k).to_node.toNat (some k)) (du + 1)
          (g.edge_at k).to_node.toNat := hnew du hdu
      have hureach : Reaches g (P.set (g.edge_at k).to_node.toNat (some k)) du
          current.toNat := reaches_mono hext hdu
      have hvreach : ∀ w', w' < g.num_nodes.toNat → V.getD w' false = true →
          ∃ m, Reaches g P m w' := hinv.vis_reach
      have hqreach : ∀ x ∈ Q, ∃ m, Reaches g P m x.toNat := by
        intro x hx
        obtain ⟨h1, h2, h3⟩ := hinv.queue_ok x hx
        exact hinv.vis_reach x.toNat (by omega) h3
      have htr : ∀ {u' w' : Nat} {c : Nat}, (∃ m, Reaches g P m u') →
          (∃ m, Reaches g P m w') → DistLe g P u' w' c →
          DistLe g (P.set (g.edge_at k).to_node.toNat (some k)) u' w' c :=
        fun hu hw h => distLe_mono hsrc' hext hu hw h
      have hqvalle : ∀ x ∈ Q, ∃ m, Reaches g P m x.toNat ∧ du ≤ m ∧ m ≤ du + 1 := by
        intro x hx
        obtain ⟨m, hm⟩ := hqreach x hx
        exact ⟨m, hm, (hlb x hx) m du hm hdu, (hub x hx) du m hdu hm⟩
      have hwnotq : (g.edge_at k).to_node.toNat ∉ Q.map Int.toNat := by
        intro hmem
        rw [List.mem_map] at hmem
        obtain ⟨x, hx, hxe⟩ := hmem
        have h3 := (hinv.queue_ok x hx).2.2
        rw [hxe] at h3
        rw [h3] at hwunvis
        exact absurd hwunvis (by simp)
      have hvis' : ∀ w', V.getD w' false = true →
          (V.set (g.edge_at k).to_node.toNat true).getD w' false = true :=
        fun w' h => getD_set_true_mono _ _ _ h
      have hwvis' : (V.set (g.edge_at k).to_node.toNat true).getD
          (g.edge_at k).to_node.toNat false = true := by
        rw [getD_set_my, if_pos ⟨rfl, by rw [hinv.vlen]; exact hwlt⟩]
      have hvchar : ∀ w', (V.set (g.edge_at k).to_node.toNat true).getD w' false = true →
          w' = (g.edge_at k).to_node.toNat ∨ V.getD w' false = true := by
        intro w' h
        rw [getD_set_my] at h
        split_ifs at h with h1
        · exact Or.inl h1.1.symm
        · exact Or.inr h
      refine ih (pre ++ [k]) _ _ _ (du) hsplit' (hvis' _ hcur) hinv' hureach ?_ ?_ ?_ ?_ ?_ ?_ ?_ ?_
      · rw [List.map_append, List.mem_append]
        intro hc
        rcases hc with hc | hc
        · exact hnotin hc
        · rw [List.map_singleton, List.mem_singleton] at hc
          rw [hc] at hcur
          rw [hcur] at hwunvis
          exact absurd hwunvis (by simp)
      · rw [List.map_append, List.map_singleton]
        rw [List.nodup_append]
        refine ⟨hqnd, List.nodup_singleton _, ?_⟩
        intro a ha hb
        rw [List.mem_singleton] at hb
        subst hb
        exact hwnotq ha
      · rw [List.pairwise_append]
        refine ⟨?_, List.pairwise_singleton _ _, ?_⟩
        · apply List.Pairwise.imp_of_mem ?_ hqsorted
          intro a b ha hb h
          exact htr (hqreach b hb) (hqreach a ha) h
        · intro a ha b hb
          rw [List.mem_singleton] at hb
          subst hb
          obtain ⟨ma, hma, hma1, hma2⟩ := hqvalle a ha
          exact distLe_of_values hsrc' hwreach (reaches_mono hext hma) (by omega)
      · intro x hx
        rcases List.mem_append.mp hx with hx | hx
        · exact htr (hqreach x hx) ⟨du, hdu⟩ (hlb x hx)
        · rw [List.mem_singleton] at hx
          subst hx
          exact distLe_of_values hsrc' hwreach hureach (by omega)
      · intro x hx
        rcases List.mem_append.mp hx with hx | hx
        · exact htr ⟨du, hdu⟩ (hqreach x hx) (hub x hx)
        · rw [List.mem_singleton] at hx
          subst hx
          exact distLe_of_values hsrc' hureach hwreach (by omega)
      · intro w' hw' hw'v
        rcases hvchar w' hw'v with he | hv
        · subst he
          exact distLe_of_values hsrc' hureach hwreach (by omega)
        · exact htr ⟨du, hdu⟩ (hvreach w' hw' hv) (hvb w' hw' hv)
      · intro u' hu' hu'v hu'q hu'c k' hk' hk'rem
        rw [List.map_append, List.map_singleton, List.mem_append, List.mem_singleton] at hu'q
        push_neg at hu'q
        rcases hvchar u' hu'v with he | hv
        · exact absurd he hu'q.2
        · have h := hexp u' hu' hv hu'q.1 hu'c k' hk' hk'rem
          have hk'lt : k' < g.edges.length := by
            have hu'g : u' < g.graph.length := by
              rw [hWf.graph_len]
              omega
            exact (hWf.adj_sound u' (List.mem_range.mpr hu'g) k' hk').1
          have hto' : (g.edge_at k').to_node.toNat < g.num_nodes.toNat := by
            have h1 := (hWf.edge_wf k' (List.mem_range.mpr hk'lt)).to_nonneg
            have h2 := (hWf.edge_wf k' (List.mem_range.mpr hk'lt)).to_lt
            omega
          exact ⟨hvis' _ h.1,
            htr (hvreach u' hu' hv) (hvreach _ hto' h.1) h.2⟩
      · intro k' hk' hk'rem
        rcases List.mem_append.mp hk' with hk' | hk'
        · have h := hpre k' hk' hk'rem
          have hk'lt : k' < g.edges.length := by
            have := hWf.adj_sound current.toNat (List.mem_range.mpr hct) k'
              (by rw [hsplit]; exact List.mem_append.mpr (Or.inl hk'))
            exact this.1
          have hto' : (g.edge_at k').to_node.toNat < g.num_nodes.toNat := by
            have h1 := (hWf.edge_wf k' (List.mem_range.mpr hk'lt)).to_nonneg
            have h2 := (hWf.edge_wf k' (List.mem_range.mpr hk'lt)).to_lt
            omega
          exact ⟨hvis' _ h.1, htr ⟨du, hdu⟩ (hvreach _ hto' h.1) h.2⟩
        · rw [List.mem_singleton] at hk'
          subst hk'
          exact ⟨hwvis', distLe_of_values hsrc' hureach hwreach (by omega)⟩
    · rw [if_neg hcond]
      refine ih (pre ++ [k]) _ _ _ du hsplit' hcur hinv hdu hnotin hqnd hqsorted
        hlb hub hvb hexp ?_
      intro k' hk' hk'rem
      rcases List.mem_append.mp hk' with hk' | hk'
      · exact hpre k' hk' hk'rem
      · rw [List.mem_singleton] at hk'
        subst hk'
        have hv : V.getD (g.edge_at k').to_node.toNat false = true := by
          by_contra hc
          exact hcond ⟨hk'rem, hc⟩
        exact ⟨hv, hvb _ hwin hv⟩

theorem bfsLoop_comp (g : Graph) (hWf : g.Wf) :
    ∀ (fuel : Nat) (Q : List Int) (V : List Bool) (P : List (Option Nat)),
    SearchInv g Q V P → CompInv g Q V P →
    V.count false + Q.length < fuel →
    ∃ Q', SearchInv g Q' (g.bfsLoop fuel Q V P).1 (g.bfsLoop fuel Q V P).2 ∧
      CompInv g Q' (g.bfsLoop fuel Q V P).1 (g.bfsLoop fuel Q V P).2 ∧
      (Q' = [] ∨ ∃ rest, Q' = g.sink :: rest) := by
  intro fuel
  induction fuel with
  | zero =>
    intro Q V P _ _ h
    omega
  | succ fuel ih =>
    intro Q V P hinv hcomp hpot
    cases Q with
    | nil => exact ⟨[], hinv, hcomp, Or.inl rfl⟩
    | cons current rest =>
      rw [bfsLoop_cons]
      by_cases hsink : current = g.sink
      · rw [if_pos hsink]
        refine ⟨current :: rest, hinv, hcomp, Or.inr ⟨rest, ?_⟩⟩
        rw [hsink]
      · rw [if_neg hsink]
        have hq := hinv.queue_ok current (List.mem_cons_self current rest)
        have hcur := hq.2.2
        obtain ⟨du, hdu⟩ := hinv.vis_reach current.toNat
          (by
            have h1 := hq.1
            have h2 := hq.2.1
            omega) hcur
        have hqnd := hcomp.qnd
        rw [List.map_cons, List.nodup_cons] at hqnd
        have hsorted := hcomp.qsorted
        rw [List.pairwise_cons] at hsorted
        have hct : current.toNat < g.graph.length := by
          rw [hWf.graph_len]
          have h1 := hq.1
          have h2 := hq.2.1
          omega
        have hadjrange : ∀ k ∈ g.adj current, (g.edge_at k).to_node.toNat < V.length := by
          intro k hk
          have hadj := hWf.adj_sound current.toNat (List.mem_range.mpr hct) k hk
          have hew := hWf.edge_wf k (List.mem_range.mpr hadj.1)
          have h1 := hew.to_nonneg
          have h2 := hew.to_lt
          rw [hinv.vlen]
          omega
        obtain ⟨hSI, hCI⟩ := visitEdges_comp g hWf current hq.1 hq.2.1
          (g.adj current) [] V P rest du rfl hcur (searchInv_dequeue hinv) hdu
          hqnd.1 hqnd.2 hsorted.2 hsorted.1
          (fun x hx => hcomp.qspread current (List.mem_cons_self current rest) x
            (List.mem_cons_of_mem current hx))
          (fun w hw hwv => hcomp.vbound w hw hwv current (List.mem_cons_self current rest))
          (fun u' h1 h2 h3 h4 => hcomp.expanded u' h1 h2
            (by
              rw [List.map_cons]
              intro hc
              rcases List.mem_cons.mp hc with hc | hc
              · exact h4 hc
              · exact h3 hc))
          (by
            intro k' hk'
            exact absurd hk' (List.not_mem_nil k'))
        have hpot' := visitEdges_potential g (g.adj current) V P rest hadjrange
        exact ih _ _ _ hSI hCI (by
          rw [hpot']
          simp only [List.length_cons] at hpot
          omega)

theorem count_false_replicate (n : Nat) : (List.replicate n false).count false = n := by
  induction n with
  | zero => rfl
  | succ m ih =>
    rw [List.replicate_succ]
    simp [List.count_cons, ih]

theorem compInv_init (g : Graph) (hWf : g.Wf) :
    CompInv g [g.source] g.bfsVisited0 g.bfsPrevious0 := by
  have hn := hWf.n_pos
  have hs1 := hWf.source_nonneg
  have hs2 := hWf.source_lt
  have hsrc_lt : g.source.toNat < g.num_nodes.toNat := by omega
  have hv0 : ∀ v, g.bfsVisited0.getD v false = true → v = g.source.toNat := by
    intro v hv
    unfold Graph.bfsVisited0 at hv
    rw [getD_set_my] at hv
    split_ifs at hv with h1
    · exact h1.1.symm
    · rw [getD_replicate_my] at hv
      split_ifs at hv
  have hp0 : g.bfsPrevious0.getD g.source.toNat none = none := by
    unfold Graph.bfsPrevious0
    rw [getD_replicate_my]
    split <;> rfl
  have hdss : DistLe g g.bfsPrevious0 g.source.toNat g.source.toNat 1 :=
    distLe_of_values hp0 Reaches.base Reaches.base (by omega)
  constructor
  · simp
  · simp
  · intro a ha b hb
    rw [List.mem_singleton] at ha hb
    subst ha
    subst hb
    exact hdss
  · intro w hw hwv x hx
    rw [List.mem_singleton] at hx
    subst hx
    have := hv0 w hwv
    subst this
    exact hdss
  · intro u hu huv huq k hk hkrem
    exfalso
    have := hv0 u huv
    subst this
    exact huq (by simp)

theorem bfsTrace_comp (g : Graph) (hWf : g.Wf) :
    ∃ Q', SearchInv g Q' (g.bfsTrace).1 (g.bfsTrace).2 ∧
      CompInv g Q' (g.bfsTrace).1 (g.bfsTrace).2 ∧
      (Q' = [] ∨ ∃ rest, Q' = g.sink :: rest) := by
  have hn := hWf.n_pos
  have hs1 := hWf.source_nonneg
  have hs2 := hWf.source_lt
  have hsrc_lt : g.source.toNat < g.num_nodes.toNat := by omega
  have hrep : (List.replicate g.num_nodes.toNat false).getD g.source.toNat false
      = false := by
    rw [getD_replicate_my]
    split <;> rfl
  have hcount : g.bfsVisited0.count false + 1 = g.num_nodes.toNat := by
    unfold Graph.bfsVisited0
    rw [count_false_set _ _ (by simp [hsrc_lt]) hrep, count_false_replicate]
  exact bfsLoop_comp g hWf g.loopFuel [g.source] g.bfsVisited0 g.bfsPrevious0
    (searchInv_init g hWf) (compInv_init g hWf)
    (by
      show g.bfsVisited0.count false + 1 < g.num_nodes.toNat + 1
      omega)

theorem exit_path_bound (g : Graph) (hWf : g.Wf) {Q : List Int} {V : List Bool}
    {P : List (Option Nat)} (hinv : SearchInv g Q V P) (hcomp : CompInv g Q V P) :
    ∀ {n v}, PathTo g n v →
      (V.getD v false = true ∧ ∀ m, Reaches g P m v → m ≤ n) ∨
      (∃ x ∈ Q, ∀ m, Reaches g P m x.toNat → m ≤ n) := by
  intro n v h
  induction h with
  | base =>
    left
    refine ⟨hinv.src_vis, ?_⟩
    intro m hm
    have := reaches_unique hinv.src_prev Reaches.base hm
    omega
  | step n u k hp hmem hrem ih =>
    rcases ih with ⟨hvu, hdu⟩ | ⟨x, hx, hb⟩
    · have hu_lt : u < g.num_nodes.toNat := by
        by_contra hge
        have hemp : g.graph.getD u [] = [] :=
          List.getD_eq_default _ _ (by rw [hWf.graph_len]; omega)
        rw [hemp] at hmem
        exact absurd hmem (List.not_mem_nil k)
      by_cases hq : u ∈ Q.map Int.toNat
      · right
        obtain ⟨x, hx, hxe⟩ := List.mem_map.mp hq
        refine ⟨x, hx, ?_⟩
        intro m hm
        rw [hxe] at hm
        have := hdu m hm
        omega
      · have hexp := hcomp.expanded u hu_lt hvu hq k hmem hrem
        left
        refine ⟨hexp.1, ?_⟩
        intro m hm
        obtain ⟨mu, hmu⟩ := hinv.vis_reach u hu_lt hvu
        have h1 := hexp.2 mu m hmu hm
        have h2 := hdu mu hmu
        omega
    · right
      refine ⟨x, hx, ?_⟩
      intro m hm
      have := hb m hm
      omega

theorem bfsTrace_sink_found (g : Graph) (hWf : g.Wf) {n : Nat}
    (hpath : PathTo g n g.sink.toNat) :
    (g.bfsTrace).1.getD g.sink.toNat false = true ∧
    ∀ m, Reaches g (g.bfsTrace).2 m g.sink.toNat → m ≤ n := by
  obtain ⟨Q', hSI, hCI, hexit⟩ := bfsTrace_comp g hWf
  rcases exit_path_bound g hWf hSI hCI hpath with ⟨hv, hb⟩ | ⟨x, hx, hb⟩
  · exact ⟨hv, hb⟩
  · rcases hexit with rfl | ⟨rest, rfl⟩
    · exact absurd hx (List.not_mem_nil x)
    · have hsv : (g.bfsTrace).1.getD g.sink.toNat false = true :=
        (hSI.queue_ok g.sink (List.mem_cons_self g.sink rest)).2.2
      refine ⟨hsv, ?_⟩
      intro m hm
      rcases List.mem_cons.mp hx with rfl | hx'
      · exact hb m hm
      · have hs := hCI.qsorted
        rw [List.pairwise_cons] at hs
        have hd := hs.1 x hx'
        have hq := hSI.queue_ok x (List.mem_cons_of_mem g.sink hx')
        obtain ⟨mx, hmx⟩ := hSI.vis_reach x.toNat
          (by
            have h1 := hq.1
            have h2 := hq.2.1
            omega) hq.2.2
        have h1 := hd mx m hmx hm
        have h2 := hb mx hmx
        omega

/-- Claim C8: `Graph.bfs` finds a shortest augmenting path.  If no
source-to-sink walk over adjacency edges with positive remaining
capacity exists, the search returns 0 without touching the state.
Otherwise the returned bottleneck is positive and the predecessor array
records a non-empty chain of edges (`Graph.bfsChain`, sink end first)
linking the sink back to the source through adjacency edges of positive
remaining capacity; the chain is an augmenting path whose length is
minimal among all augmenting paths, and the bottleneck is exactly the
minimum remaining capacity over the chain's edges. -/
theorem bfs_shortest_augmenting (g : Graph) (hWf : g.Wf) :
    ((∀ n, ¬ PathTo g n g.sink.toNat) → g.bfs = (0, g)) ∧
    ((∃ n, PathTo g n g.sink.toNat) →
      0 < (g.bfs).1 ∧
      g.bfsChain ≠ [] ∧
      LinksFrom g g.sink.toNat g.bfsChain ∧
      (∀ k ∈ g.bfsChain,
        (g.bfsTrace).2.getD (g.edge_at k).to_node.toNat none = some k ∧
        k ∈ g.graph.getD (g.edge_at k).from_node.toNat [] ∧
        (g.edge_at k).remaining_capacity > 0) ∧
      PathTo g g.bfsChain.length g.sink.toNat ∧
      (∀ n, PathTo g n g.sink.toNat → g.bfsChain.length ≤ n) ∧
      (∀ k ∈ g.bfsChain, (g.bfs).1 ≤ (g.edge_at k).remaining_capacity) ∧
      (∃ k ∈ g.bfsChain, (g.bfs).1 = (g.edge_at k).remaining_capacity)) := by
  constructor
  · exact bfs_zero_of_no_path g hWf
  · rintro ⟨n0, hp0⟩
    obtain ⟨queue, hinv⟩ := bfsTrace_inv g hWf
    have hsinklt : g.sink.toNat < g.num_nodes.toNat := by
      have h1 := hWf.sink_nonneg
      have h2 := hWf.sink_lt
      omega
    obtain ⟨hfound, hmin0⟩ := bfsTrace_sink_found g hWf hp0
    obtain ⟨m, hm⟩ := hinv.vis_reach g.sink.toNat hsinklt hfound
    have hm1 : 1 ≤ m := by
      rcases Nat.eq_zero_or_pos m with h0 | h
      · exfalso
        subst h0
        have heq := reaches_zero hm
        have h1 := hWf.source_nonneg
        have h2 := hWf.sink_nonneg
        have h3 := hWf.ne
        omega
      · exact h
    obtain ⟨m', rfl⟩ : ∃ m'', m = m'' + 1 := ⟨m - 1, by omega⟩
    obtain ⟨k0, hsink⟩ : ∃ k0, (g.bfsTrace).2.getD g.sink.toNat none = some k0 := by
      cases hm with
      | step mm vv kk hpk hrk => exact ⟨_, hpk⟩
    have hsrclt : g.source.toNat < (g.bfsTrace).2.length := by
      rw [hinv.plen]
      have h1 := hWf.source_nonneg
      have h2 := hWf.source_lt
      omega
    have hbound : m' + 1 < (g.bfsTrace).2.length :=
      reaches_bound hinv.src_prev hsrclt hm
    have hfuel : m' + 1 ≤ g.loopFuel := by
      rw [hinv.plen] at hbound
      unfold Graph.loopFuel
      omega
    obtain ⟨hlen, hlinks, hrec, hnd, hpnd⟩ := chain_facts g hWf hinv hm g.loopFuel hfuel
    obtain ⟨_, _, hmemrec, _, _⟩ :=
      chainFrom_spec g (g.bfsTrace).2 hinv.src_prev (searchInv_hto hinv) hm g.loopFuel hfuel
    cases hc : chainFrom g (g.bfsTrace).2 g.loopFuel
        ((g.bfsTrace).2.getD g.sink.toNat none) with
    | nil =>
      exfalso
      rw [hc] at hlen
      simp at hlen
    | cons c0 cs' =>
      have hchain_eq : g.bfsChain = c0 :: cs' := hc
      rw [hc] at hlen hlinks hrec hmemrec
      obtain ⟨b, hfold, hble, hball, hattain⟩ := minInf_fold_spec g cs'
        ((g.edge_at c0).remaining_capacity)
      have hwm : g.walkMin (g.bfsTrace).2 g.loopFuel
          ((g.bfsTrace).2.getD g.sink.toNat none) none = some b := by
        rw [walkMin_eq_foldl, hc]
        exact hfold
      rw [hsink] at hwm
      have hbfs : g.bfs = (b, { g with edges := (walkUpdate (g.bfsTrace).2 g.loopFuel
          g.edges (some k0) b) }) := by
        rw [bfs_def, hsink]
        show (match g.walkMin (g.bfsTrace).2 g.loopFuel (some k0) none with
          | none => (0, g)
          | some network_flow =>
            (network_flow, { g with edges := (walkUpdate (g.bfsTrace).2 g.loopFuel g.edges
                (some k0) network_flow) })) = _
        rw [hwm]
      have hb1 : (g.bfs).1 = b := by rw [hbfs]
      have hrem_all : ∀ k ∈ c0 :: cs', b ≤ (g.edge_at k).remaining_capacity := by
        intro k hk
        rcases List.mem_cons.mp hk with h | h
        · subst h
          exact hble
        · exact hball k h
      have hattain' : ∃ k ∈ c0 :: cs', b = (g.edge_at k).remaining_capacity := by
        rcases hattain with h | ⟨k, hk, he⟩
        · exact ⟨c0, List.mem_cons_self c0 cs', h⟩
        · exact ⟨k, List.mem_cons_of_mem c0 hk, he⟩
      have hpos : 0 < b := by
        obtain ⟨k, hk, he⟩ := hattain'
        rw [he]
        exact (hrec k hk).2.2
      have hpath := linksFrom_pathTo g (c0 :: cs') g.sink.toNat hlinks
        (fun k hk => (hrec k hk).2.1) (fun k hk => (hrec k hk).2.2)
      refine ⟨?_, ?_, ?_, ?_, ?_, ?_, ?_, ?_⟩
      · rw [hb1]
        exact hpos
      · rw [hchain_eq]
        simp
      · rw [hchain_eq]
        exact hlinks
      · rw [hchain_eq]
        intro k hk
        exact ⟨hmemrec k hk, (hrec k hk).2.1, (hrec k hk).2.2⟩
      · rw [hchain_eq]
        exact hpath
      · intro n hp
        rw [hchain_eq]
        have hb2 := (bfsTrace_sink_found g hWf hp).2 (m' + 1) hm
        rw [hlen]
        omega
      · rw [hchain_eq, hb1]
        exact hrem_all
      · rw [hchain_eq, hb1]
        exact hattain'

theorem path_graph1 : PathTo graph1 4 graph1.sink.toNat := by
  have h0 : PathTo graph1 0 graph1.source.toNat := PathTo.base
  have h1 : PathTo graph1 1 1 := by
    have h := PathTo.step 0 graph1.source.toNat 0 h0 (by decide) (by decide)
    exact (by decide : (graph1.edge_at 0).to_node.toNat = 1) ▸ h
  have h2 : PathTo graph1 2 4 := by
    have h := PathTo.step 1 1 6 h1 (by decide) (by decide)
    exact (by decide : (graph1.edge_at 6).to_node.toNat = 4) ▸ h
  have h3 : PathTo graph1 3 6 := by
    have h := PathTo.step 2 4 16 h2 (by decide) (by decide)
    exact (by decide : (graph1.edge_at 16).to_node.toNat = 6) ▸ h
  have h4 : PathTo graph1 4 9 := by
    have h := PathTo.step 3 6 22 h3 (by decide) (by decide)
    exact (by decide : (graph1.edge_at 22).to_node.toNat = 9) ▸ h
  rw [show graph1.sink.toNat = 9 from by decide]
  exact h4

/-- Witness for claim C8: the demo network has a four-edge augmenting
path from the source to the sink, so the first `bfs` on it returns a
positive bottleneck along a recorded chain of at most four edges. -/
theorem bfs_shortest_augmenting_witness :
    0 < (graph1.bfs).1 ∧ graph1.bfsChain ≠ [] ∧ graph1.bfsChain.length ≤ 4 := by
  have h := (bfs_shortest_augmenting graph1 (by decide)).2 ⟨4, path_graph1⟩
  exact ⟨h.1, h.2.1, h.2.2.2.2.2.1 4 path_graph1⟩
